import Mathlib

/-!
Shallow embedding of `src/scheduler.ts` from the Study-optm repository.

Modelling conventions:
* Calendar dates are integers counting days (the code stores ISO date strings
  and compares them through `Date.getTime()`; for date-only values this is
  order- and difference-isomorphic to the day count, and `setDate(+k)` is `+ k`).
* JS numbers carrying hours, difficulties and priorities become `ℚ`
  (the algorithm only uses `min`, subtraction, addition, division and order).
* The `Map<number, number>` of remaining hours becomes a total function
  `ℤ → ℚ` defaulting to `0`, matching the code's `get(s.id) || 0` reads.
* The `MinHeap` class becomes a list of `(priority, value)` pairs with the
  same array-index manipulations (`heapifyUp`, `heapifyDown`, push/pop).
-/

namespace Scheduler

/-- The `type` field of a `ScheduleItem`: `'study' | 'revision'`. -/
inductive ItemType where
  | study : ItemType
  | revision : ItemType
deriving DecidableEq, Repr, Inhabited

/-- The `Subject` interface of `scheduler.ts`. -/
structure Subject where
  id : ℤ
  name : String
  difficulty : ℚ
  examDate : ℤ
  estimatedHours : ℚ
deriving DecidableEq, Repr, Inhabited

/-- The `ScheduleItem` interface of `scheduler.ts`. -/
structure ScheduleItem where
  date : ℤ
  subjectId : ℤ
  subjectName : String
  hours : ℚ
  type : ItemType
deriving DecidableEq, Repr, Inhabited

/-- The comparison used in `merge`: take the left element when
`d1 < d2 || (d1 === d2 && left.difficulty > right.difficulty)`. -/
def takeLeft (a b : Subject) : Prop :=
  a.examDate < b.examDate ∨ (a.examDate = b.examDate ∧ b.difficulty < a.difficulty)

instance : DecidablePred fun p : Subject × Subject => takeLeft p.1 p.2 := by
  intro p; unfold takeLeft; infer_instance

instance (a b : Subject) : Decidable (takeLeft a b) := by
  unfold takeLeft; infer_instance

/-- The `merge` helper of `scheduler.ts` (the two-pointer loop followed by
`concat` of the leftovers is the standard structural merge).  The extra fuel
argument keeps the recursion structural so the kernel can evaluate it; it is
instantiated with `l.length + r.length`, which is always sufficient. -/
def mergeSubjF : Nat → List Subject → List Subject → List Subject
  | _, [], r => r
  | _, l, [] => l
  | 0, l, r => l ++ r
  | fuel + 1, x :: xs, y :: ys =>
    if takeLeft x y then x :: mergeSubjF fuel xs (y :: ys)
    else y :: mergeSubjF fuel (x :: xs) ys

/-- The `merge` helper with its fuel fully applied. -/
def mergeSubj (l r : List Subject) : List Subject :=
  mergeSubjF (l.length + r.length) l r

/-- `mergeSortSubjects` from `scheduler.ts`: split at `⌊n/2⌋`, recurse on both
halves, merge.  Fueled for the same reason; recursion depth is at most the
list length. -/
def mergeSortF : Nat → List Subject → List Subject
  | 0, l => l
  | fuel + 1, l =>
    if l.length ≤ 1 then l
    else
      mergeSubj (mergeSortF fuel (l.take (l.length / 2)))
        (mergeSortF fuel (l.drop (l.length / 2)))

/-- `mergeSortSubjects` with its fuel fully applied. -/
def mergeSortSubjects (subjects : List Subject) : List Subject :=
  mergeSortF subjects.length subjects

/-- The backing array of the `MinHeap<T>` class: `{ priority, value }` pairs. -/
abbrev Heap (α : Type) := List (ℚ × α)

/-- Swap two array slots, reading both before writing (the JS destructuring
`[h[i], h[j]] = [h[j], h[i]]`). -/
def swapL [Inhabited α] (h : Heap α) (i j : Nat) : Heap α :=
  let a := h.getD i default
  let b := h.getD j default
  (h.set i b).set j a

/-- `MinHeap.heapifyUp`: bubble index `i` towards the root while it is
smaller than its parent.  Fueled (the index strictly decreases, so fuel `i`
is always sufficient). -/
def heapifyUpF [Inhabited α] : Nat → Heap α → Nat → Heap α
  | 0, h, _ => h
  | fuel + 1, h, i =>
    if i = 0 then h
    else
      let p := (i - 1) / 2
      if (h.getD i default).1 < (h.getD p default).1 then
        heapifyUpF fuel (swapL h i p) p
      else h

/-- `MinHeap.heapifyUp` with its fuel fully applied. -/
def heapifyUp [Inhabited α] (h : Heap α) (i : Nat) : Heap α :=
  heapifyUpF i h i

/-- The index the `heapifyDown` loop body selects as `smallest` for slot `i`:
compare with the left child, then with the right child. -/
def smallestIdx [Inhabited α] (h : Heap α) (i : Nat) : Nat :=
  let l := 2 * i + 1
  let r := 2 * i + 2
  let s1 := if l < h.length ∧ (h.getD l default).1 < (h.getD i default).1 then l else i
  if r < h.length ∧ (h.getD r default).1 < (h.getD s1 default).1 then r else s1

/-- `MinHeap.heapifyDown`: sink index `i` while a child is smaller.  Fueled
(the index strictly increases and stays below the unchanged length, so fuel
`h.length` is always sufficient). -/
def heapifyDownF [Inhabited α] : Nat → Heap α → Nat → Heap α
  | 0, h, _ => h
  | fuel + 1, h, i =>
    let s := smallestIdx h i
    if s = i then h else heapifyDownF fuel (swapL h i s) s

/-- `MinHeap.heapifyDown` with its fuel fully applied. -/
def heapifyDown [Inhabited α] (h : Heap α) (i : Nat) : Heap α :=
  heapifyDownF h.length h i

/-- `MinHeap.insert`: push `(priority, value)` then `heapifyUp` on the last slot. -/
def heapInsert (h : Heap α) (p : ℚ) (v : α) [Inhabited α] : Heap α :=
  heapifyUp (h ++ [(p, v)]) h.length

/-- `MinHeap.extractMin`: `null` on empty, pop on a singleton, otherwise take
the root, move the popped last element to the root and `heapifyDown`. -/
def extractMin [Inhabited α] : Heap α → Option (α × Heap α)
  | [] => none
  | [x] => some (x.2, [])
  | x :: y :: rest =>
    let h := x :: y :: rest
    some (x.2, heapifyDown ((h.dropLast).set 0 (h.getLastD default)) 0)

/-- The `remainingHoursMap`: a JS `Map<number, number>` read through
`get(id) || 0`, modelled as a total function defaulting to `0`. -/
abbrev RemMap := ℤ → ℚ

/-- Point update of the remaining-hours map (`remainingHoursMap.set`). -/
def updateMap (m : RemMap) (k : ℤ) (v : ℚ) : RemMap :=
  fun i => if i = k then v else m i

/-- Initialisation `sortedSubjects.forEach(s => map.set(s.id, s.estimatedHours))`:
a left fold, so a later duplicate id overwrites an earlier one. -/
def buildRem (sorted : List Subject) : RemMap :=
  sorted.foldl (fun m s => updateMap m s.id s.estimatedHours) (fun _ => 0)

/-- `Math.max(1, Math.ceil((examDate - currentDate) / day))`; with date-only
values the quotient is an exact integer, so the `ceil` is the difference. -/
def daysUntilExam (s : Subject) (day : ℤ) : ℤ :=
  max 1 (s.examDate - day)

/-- The per-day queue build: every subject with positive remaining hours is
inserted with priority `daysUntilExam / difficulty` (the `diffDays > 0` guard
is kept from the source even though `daysUntilExam` is always positive). -/
def buildQueue (sorted : List Subject) (rem : RemMap) (day : ℤ) : Heap Subject :=
  sorted.foldl
    (fun pq s =>
      if 0 < rem s.id then
        let dd := daysUntilExam s day
        if 0 < dd then heapInsert pq ((dd : ℚ) / s.difficulty) s else pq
      else pq)
    []

/-- The `study` ScheduleItem pushed for one allocated chunk. -/
def studyItem (day : ℤ) (s : Subject) (chunk : ℚ) : ScheduleItem :=
  ⟨day, s.id, s.name, chunk, ItemType.study⟩

/-- The revision entries pushed right after a study chunk: offsets 1, 3, 7,
each kept only when its date strictly precedes the subject's exam date. -/
def revisionItemsFor (day : ℤ) (s : Subject) : List ScheduleItem :=
  ([1, 3, 7] : List ℤ).filterMap fun k =>
    if day + k < s.examDate then
      some ⟨day + k, s.id, s.name, 1 / 2, ItemType.revision⟩
    else none

/-- The greedy inner `while (!pq.isEmpty() && hoursAllocatedToday < maxDailyHours)`
loop of `generateSchedule`, returning the emitted items and the updated map.
Fueled (every iteration shrinks the heap by one, so fuel `pq.length` is
always sufficient). -/
def allocLoopF : Nat → Heap Subject → RemMap → ℚ → ℚ → ℤ →
    List ScheduleItem × RemMap
  | 0, _, rem, _, _, _ => ([], rem)
  | fuel + 1, pq, rem, alloc, maxH, day =>
    if pq = [] ∨ ¬ alloc < maxH then ([], rem)
    else
      match extractMin pq with
      | none => ([], rem)
      | some (s, pq') =>
        let remaining := rem s.id
        let chunk := min 2 (min remaining (maxH - alloc))
        if 0 < chunk then
          let res := allocLoopF fuel pq' (updateMap rem s.id (remaining - chunk))
            (alloc + chunk) maxH day
          (studyItem day s chunk :: (revisionItemsFor day s ++ res.1), res.2)
        else allocLoopF fuel pq' rem alloc maxH day

/-- The greedy inner loop with its fuel fully applied. -/
def allocLoop (pq : Heap Subject) (rem : RemMap) (alloc : ℚ) (maxH : ℚ) (day : ℤ) :
    List ScheduleItem × RemMap :=
  allocLoopF pq.length pq rem alloc maxH day

/-- One iteration of the `for (let d = 0; ...)` day loop. -/
def runDay (sorted : List Subject) (rem : RemMap) (day : ℤ) (maxH : ℚ) :
    List ScheduleItem × RemMap :=
  allocLoop (buildQueue sorted rem day) rem 0 maxH day

/-- The remaining `n` iterations of the day loop starting at `day`. -/
def runDays : Nat → List Subject → RemMap → ℤ → ℚ → List ScheduleItem
  | 0, _, _, _, _ => []
  | n + 1, sorted, rem, day, maxH =>
    let r := runDay sorted rem day maxH
    r.1 ++ runDays n sorted r.2 (day + 1) maxH

/-- The remaining-hours map at the start of simulated day `j`. -/
def stateAt (sorted : List Subject) (rem : RemMap) (day : ℤ) (maxH : ℚ) :
    Nat → RemMap
  | 0 => rem
  | j + 1 => stateAt sorted (runDay sorted rem day maxH).2 (day + 1) maxH j

/-- `generateSchedule` from `scheduler.ts` (`totalDaysToPlan = 30`; the source
default for `maxDailyHours` is `6`). -/
def generateSchedule (subjects : List Subject) (startDate : ℤ) (maxH : ℚ) :
    List ScheduleItem :=
  let sorted := mergeSortSubjects subjects
  runDays 30 sorted (buildRem sorted) startDate maxH

/-- Sum of `hours` over `study` items dated `D`. -/
def sumStudyOn (l : List ScheduleItem) (D : ℤ) : ℚ :=
  (l.map fun it =>
    if it.type = ItemType.study ∧ it.date = D then it.hours else 0).sum

/-- Sum of `hours` over `study` items carrying subject id `i`. -/
def sumStudyFor (l : List ScheduleItem) (i : ℤ) : ℚ :=
  (l.map fun it =>
    if it.type = ItemType.study ∧ it.subjectId = i then it.hours else 0).sum

/-- Number of `study` items for subject id `i` dated `D`. -/
def countStudyAt (l : List ScheduleItem) (i : ℤ) (D : ℤ) : ℕ :=
  l.countP fun it =>
    decide (it.type = ItemType.study ∧ it.subjectId = i ∧ it.date = D)

/-- Number of `revision` items for subject id `i` dated `D`. -/
def countRevAt (l : List ScheduleItem) (i : ℤ) (D : ℤ) : ℕ :=
  l.countP fun it =>
    decide (it.type = ItemType.revision ∧ it.subjectId = i ∧ it.date = D)

/-- The `study` items dated `D`, in emission order. -/
def filterStudyOn (l : List ScheduleItem) (D : ℤ) : List ScheduleItem :=
  l.filter fun it => decide (it.type = ItemType.study ∧ it.date = D)

/-- A quantity is a whole or half unit when twice it is an integer. -/
def isHalfUnit (q : ℚ) : Prop := (2 * q).den = 1

instance (q : ℚ) : Decidable (isHalfUnit q) := by
  unfold isHalfUnit; infer_instance

/-- The total preorder established by the sort: exam date ascending, and on
equal dates difficulty descending. -/
def subjOrder (a b : Subject) : Prop :=
  a.examDate < b.examDate ∨ (a.examDate = b.examDate ∧ b.difficulty ≤ a.difficulty)

theorem smallestIdx_of_ne [Inhabited α] (h : Heap α) (i : Nat)
    (hne : smallestIdx h i ≠ i) : i < smallestIdx h i ∧ smallestIdx h i < h.length := by
  dsimp only [smallestIdx] at hne ⊢
  split_ifs at hne ⊢ <;> simp_all <;> omega

theorem length_swapL [Inhabited α] (h : Heap α) (i j : Nat) :
    (swapL h i j).length = h.length := by
  simp [swapL]

theorem length_heapifyUpF [Inhabited α] (fuel : Nat) (h : Heap α) (i : Nat) :
    (heapifyUpF fuel h i).length = h.length := by
  induction fuel generalizing h i with
  | zero => rfl
  | succ fuel ih =>
    rw [heapifyUpF]
    split
    · rfl
    · dsimp only
      split
      · rw [ih, length_swapL]
      · rfl

theorem length_heapifyDownF [Inhabited α] (fuel : Nat) (h : Heap α) (i : Nat) :
    (heapifyDownF fuel h i).length = h.length := by
  induction fuel generalizing h i with
  | zero => rfl
  | succ fuel ih =>
    rw [heapifyDownF]
    split
    · rfl
    · rw [ih, length_swapL]

theorem extractMin_length [Inhabited α] (h : Heap α) (v : α) (h' : Heap α)
    (hx : extractMin h = some (v, h')) : h'.length + 1 = h.length := by
  match h with
  | [] => simp [extractMin] at hx
  | [x] =>
    simp only [extractMin, Option.some.injEq, Prod.mk.injEq] at hx
    simp [← hx.2]
  | x :: y :: rest =>
    simp only [extractMin, Option.some.injEq, Prod.mk.injEq] at hx
    rw [← hx.2, heapifyDown, length_heapifyDownF]
    simp [List.length_set, List.length_dropLast]

theorem sumStudyOn_nil (D : ℤ) : sumStudyOn [] D = 0 := rfl

theorem sumStudyOn_cons (it : ScheduleItem) (l : List ScheduleItem) (D : ℤ) :
    sumStudyOn (it :: l) D =
      (if it.type = ItemType.study ∧ it.date = D then it.hours else 0) +
        sumStudyOn l D := by
  simp [sumStudyOn]

theorem sumStudyOn_append (l m : List ScheduleItem) (D : ℤ) :
    sumStudyOn (l ++ m) D = sumStudyOn l D + sumStudyOn m D := by
  simp [sumStudyOn]

theorem sumStudyOn_eq_zero (l : List ScheduleItem) (D : ℤ)
    (h : ∀ it ∈ l, it.type = ItemType.study → it.date ≠ D) :
    sumStudyOn l D = 0 := by
  induction l with
  | nil => rfl
  | cons it l ih =>
    rw [sumStudyOn_cons, ih fun x hx => h x (List.mem_cons_of_mem _ hx)]
    have : ¬(it.type = ItemType.study ∧ it.date = D) := by
      intro ⟨h1, h2⟩; exact h it (List.mem_cons_self _ _) h1 h2
    rw [if_neg this, add_zero]

theorem sumStudyFor_nil (i : ℤ) : sumStudyFor [] i = 0 := rfl

theorem sumStudyFor_cons (it : ScheduleItem) (l : List ScheduleItem) (i : ℤ) :
    sumStudyFor (it :: l) i =
      (if it.type = ItemType.study ∧ it.subjectId = i then it.hours else 0) +
        sumStudyFor l i := by
  simp [sumStudyFor]

theorem sumStudyFor_append (l m : List ScheduleItem) (i : ℤ) :
    sumStudyFor (l ++ m) i = sumStudyFor l i + sumStudyFor m i := by
  simp [sumStudyFor]

theorem sumStudyFor_nonneg (l : List ScheduleItem) (i : ℤ)
    (h : ∀ it ∈ l, it.type = ItemType.study → 0 ≤ it.hours) :
    0 ≤ sumStudyFor l i := by
  induction l with
  | nil => exact le_refl 0
  | cons it l ih =>
    rw [sumStudyFor_cons]
    have h2 := ih fun x hx => h x (List.mem_cons_of_mem _ hx)
    have h1 : 0 ≤ if it.type = ItemType.study ∧ it.subjectId = i then it.hours else 0 := by
      split
      · exact h it (List.mem_cons_self _ _) (by tauto)
      · exact le_refl 0
    linarith

/-- The three conditional revision pushes, written out. -/
theorem revisionItemsFor_eq (day : ℤ) (s : Subject) :
    revisionItemsFor day s =
      (if day + 1 < s.examDate then
        [⟨day + 1, s.id, s.name, 1 / 2, ItemType.revision⟩] else []) ++
      (if day + 3 < s.examDate then
        [⟨day + 3, s.id, s.name, 1 / 2, ItemType.revision⟩] else []) ++
      (if day + 7 < s.examDate then
        [⟨day + 7, s.id, s.name, 1 / 2, ItemType.revision⟩] else []) := by
  simp only [revisionItemsFor, List.filterMap_cons, List.filterMap_nil]
  split_ifs <;> rfl

theorem mem_revisionItemsFor (day : ℤ) (s : Subject) (it : ScheduleItem)
    (h : it ∈ revisionItemsFor day s) :
    it.type = ItemType.revision ∧ it.hours = 1 / 2 ∧ it.subjectId = s.id ∧
      it.subjectName = s.name ∧ day < it.date ∧ it.date < s.examDate ∧
      (it.date = day + 1 ∨ it.date = day + 3 ∨ it.date = day + 7) := by
  rw [revisionItemsFor_eq] at h
  simp only [List.mem_append] at h
  rcases h with (h | h) | h <;> (split_ifs at h <;> simp_all) <;> omega

theorem sumStudyOn_revisions (day : ℤ) (s : Subject) (D : ℤ) :
    sumStudyOn (revisionItemsFor day s) D = 0 :=
  sumStudyOn_eq_zero _ _ fun it hit h1 => by
    have := (mem_revisionItemsFor day s it hit).1
    rw [this] at h1
    exact absurd h1 (by simp)

theorem sumStudyFor_eq_zero (l : List ScheduleItem) (i : ℤ)
    (h : ∀ it ∈ l, it.type = ItemType.study → it.subjectId ≠ i) :
    sumStudyFor l i = 0 := by
  induction l with
  | nil => rfl
  | cons it l ih =>
    rw [sumStudyFor_cons, ih fun x hx => h x (List.mem_cons_of_mem _ hx)]
    have : ¬(it.type = ItemType.study ∧ it.subjectId = i) := by
      intro ⟨h1, h2⟩; exact h it (List.mem_cons_self _ _) h1 h2
    rw [if_neg this, add_zero]

theorem sumStudyFor_revisions (day : ℤ) (s : Subject) (i : ℤ) :
    sumStudyFor (revisionItemsFor day s) i = 0 :=
  sumStudyFor_eq_zero _ _ fun it hit h1 => by
    have := (mem_revisionItemsFor day s it hit).1
    rw [this] at h1
    exact absurd h1 (by simp)

theorem getD_mem [Inhabited α] (l : List α) (n : Nat) (hn : n < l.length) :
    l.getD n default ∈ l := by
  rw [List.getD_eq_getElem?_getD, List.getElem?_eq_getElem hn]
  exact List.getElem_mem hn

theorem mem_swapL [Inhabited α] (h : Heap α) (i j : Nat) (hi : i < h.length)
    (hj : j < h.length) (x : ℚ × α) (hx : x ∈ swapL h i j) : x ∈ h := by
  simp only [swapL] at hx
  rcases List.mem_or_eq_of_mem_set hx with hx' | hx'
  · rcases List.mem_or_eq_of_mem_set hx' with hx'' | hx''
    · exact hx''
    · exact hx'' ▸ getD_mem h j hj
  · exact hx' ▸ getD_mem h i hi

theorem mem_heapifyUpF [Inhabited α] (fuel : Nat) (h : Heap α) (i : Nat)
    (hi : i < h.length) (x : ℚ × α) (hx : x ∈ heapifyUpF fuel h i) : x ∈ h := by
  induction fuel generalizing h i with
  | zero => exact hx
  | succ fuel ih =>
    rw [heapifyUpF] at hx
    by_cases h0 : i = 0
    · rw [if_pos h0] at hx; exact hx
    · rw [if_neg h0] at hx
      dsimp only at hx
      split at hx
      · have hp : (i - 1) / 2 < i := by omega
        have hswap : (i - 1) / 2 < (swapL h i ((i - 1) / 2)).length := by
          rw [length_swapL]; omega
        exact mem_swapL h i _ hi (by omega) x (ih _ _ hswap hx)
      · exact hx

theorem mem_heapifyDownF [Inhabited α] (fuel : Nat) (h : Heap α) (i : Nat)
    (hi : i < h.length) (x : ℚ × α) (hx : x ∈ heapifyDownF fuel h i) : x ∈ h := by
  induction fuel generalizing h i with
  | zero => exact hx
  | succ fuel ih =>
    rw [heapifyDownF] at hx
    split at hx
    · exact hx
    · rename_i hs
      have hlt := smallestIdx_of_ne h i hs
      have hswap : smallestIdx h i < (swapL h i (smallestIdx h i)).length := by
        rw [length_swapL]; exact hlt.2
      exact mem_swapL h i _ hi hlt.2 x (ih _ _ hswap hx)

theorem heapInsert_mem [Inhabited α] (h : Heap α) (p : ℚ) (v : α) (x : ℚ × α)
    (hx : x ∈ heapInsert h p v) : x ∈ h ∨ x = (p, v) := by
  have hlen : h.length < (h ++ [(p, v)]).length := by simp
  have := mem_heapifyUpF h.length (h ++ [(p, v)]) h.length hlen x hx
  rcases List.mem_append.1 this with h1 | h1
  · exact Or.inl h1
  · exact Or.inr (by simpa using h1)

theorem extractMin_mem [Inhabited α] (h : Heap α) (v : α) (h' : Heap α)
    (hx : extractMin h = some (v, h')) :
    (∃ p, (p, v) ∈ h) ∧ ∀ x ∈ h', x ∈ h := by
  match h with
  | [] => simp [extractMin] at hx
  | [x] =>
    simp only [extractMin, Option.some.injEq, Prod.mk.injEq] at hx
    refine ⟨⟨x.1, ?_⟩, ?_⟩
    · rw [← hx.1]; exact List.mem_singleton_self x
    · rw [← hx.2]; intro y hy; cases hy
  | a :: b :: rest =>
    simp only [extractMin, Option.some.injEq, Prod.mk.injEq] at hx
    constructor
    · exact ⟨a.1, by rw [← hx.1]; exact List.mem_cons_self _ _⟩
    · intro x hx'
      rw [← hx.2, heapifyDown] at hx'
      have hlen : 0 < (((a :: b :: rest).dropLast).set 0
          ((a :: b :: rest).getLastD default)).length := by
        simp [List.length_dropLast]
      have := mem_heapifyDownF _ _ 0 hlen x hx'
      rcases List.mem_or_eq_of_mem_set this with h1 | h1
      · exact (List.dropLast_sublist _).subset h1
      · rw [h1]; exact List.getLastD_mem_cons _ _

/-- Every item the inner loop emits is either a study chunk dated `day` with
size in `(0, 2]` bounded by the remaining daily capacity, or a half-hour
revision entry strictly after `day`. -/
theorem allocLoopF_shape (fuel : Nat) (pq : Heap Subject) (rem : RemMap)
    (alloc maxH : ℚ) (day : ℤ) :
    ∀ it ∈ (allocLoopF fuel pq rem alloc maxH day).1,
      (it.type = ItemType.study ∧ it.date = day ∧ 0 < it.hours ∧ it.hours ≤ 2) ∨
      (it.type = ItemType.revision ∧ it.hours = 1 / 2 ∧ day < it.date) := by
  induction fuel generalizing pq rem alloc with
  | zero => intro it hit; cases hit
  | succ fuel ih =>
    intro it hit
    rw [allocLoopF] at hit
    split at hit
    · cases hit
    · split at hit
      · cases hit
      · rename_i s pq' hx
        dsimp only at hit
        split at hit
        · rename_i hchunk
          rcases List.mem_cons.1 hit with h1 | h1
          · left
            rw [h1]
            refine ⟨rfl, rfl, hchunk, min_le_left _ _⟩
          · rcases List.mem_append.1 h1 with h2 | h2
            · right
              have := mem_revisionItemsFor day s it h2
              exact ⟨this.1, this.2.1, this.2.2.2.2.1⟩
            · exact ih _ _ _ it h2
        · exact ih _ _ _ it hit

/-- The chunk size is bounded by each of its three arguments. -/
theorem chunk_le_rem (remaining cap : ℚ) :
    min 2 (min remaining cap) ≤ remaining :=
  le_trans (min_le_right _ _) (min_le_left _ _)

theorem chunk_le_cap (remaining cap : ℚ) :
    min 2 (min remaining cap) ≤ cap :=
  le_trans (min_le_right _ _) (min_le_right _ _)

/-- Capacity invariant of the inner loop: the study hours it emits for `day`
never exceed the capacity left when it starts. -/
theorem allocLoopF_sum (fuel : Nat) (pq : Heap Subject) (rem : RemMap)
    (alloc maxH : ℚ) (day : ℤ) (h : alloc ≤ maxH) :
    sumStudyOn (allocLoopF fuel pq rem alloc maxH day).1 day ≤ maxH - alloc := by
  induction fuel generalizing pq rem alloc with
  | zero =>
    rw [allocLoopF, sumStudyOn_nil]
    linarith
  | succ fuel ih =>
    rw [allocLoopF]
    split
    · rw [sumStudyOn_nil]; linarith
    · split
      · rw [sumStudyOn_nil]; linarith
      · rename_i s pq' hx
        dsimp only
        split
        · rename_i hchunk
          rw [sumStudyOn_cons, sumStudyOn_append, sumStudyOn_revisions]
          have hcap : min 2 (min (rem s.id) (maxH - alloc)) ≤ maxH - alloc :=
            chunk_le_cap _ _
          have hrec := ih pq' (updateMap rem s.id
            (rem s.id - min 2 (min (rem s.id) (maxH - alloc))))
            (alloc + min 2 (min (rem s.id) (maxH - alloc))) (by linarith)
          simp only [studyItem, and_self, if_pos]
          linarith
        · exact ih pq' rem alloc h

/-- Conservation: the final map entry for `i` is the initial entry minus the
study hours emitted for `i`. -/
theorem allocLoopF_rem_eq (fuel : Nat) (pq : Heap Subject) (rem : RemMap)
    (alloc maxH : ℚ) (day : ℤ) (i : ℤ) :
    (allocLoopF fuel pq rem alloc maxH day).2 i =
      rem i - sumStudyFor (allocLoopF fuel pq rem alloc maxH day).1 i := by
  induction fuel generalizing pq rem alloc with
  | zero => rw [allocLoopF]; rw [sumStudyFor_nil]; ring
  | succ fuel ih =>
    rw [allocLoopF]
    split
    · rw [sumStudyFor_nil]; ring
    · split
      · rw [sumStudyFor_nil]; ring
      · rename_i s pq' hx
        dsimp only
        split
        · rename_i hchunk
          rw [sumStudyFor_cons, sumStudyFor_append, sumStudyFor_revisions]
          have hrec := ih pq' (updateMap rem s.id
            (rem s.id - min 2 (min (rem s.id) (maxH - alloc))))
            (alloc + min 2 (min (rem s.id) (maxH - alloc)))
          rw [hrec]
          simp only [studyItem, updateMap]
          split_ifs with h1 h2 h2
          · rw [h1]; ring
          · exact absurd ⟨trivial, h1.symm⟩ h2
          · exact absurd h2.2.symm h1
          · ring
        · exact ih pq' rem alloc

/-- The loop never drives a nonnegative map entry negative (each chunk is at
most the extracted subject's remaining hours). -/
theorem allocLoopF_rem_nonneg (fuel : Nat) (pq : Heap Subject) (rem : RemMap)
    (alloc maxH : ℚ) (day : ℤ) (i : ℤ) (h : 0 ≤ rem i) :
    0 ≤ (allocLoopF fuel pq rem alloc maxH day).2 i := by
  induction fuel generalizing pq rem alloc with
  | zero => rw [allocLoopF]; exact h
  | succ fuel ih =>
    rw [allocLoopF]
    split
    · exact h
    · split
      · exact h
      · rename_i s pq' hx
        dsimp only
        split
        · rename_i hchunk
          refine ih pq' _ _ ?_
          by_cases hi : i = s.id
          · subst hi
            simp only [updateMap, if_true]
            have := chunk_le_rem (rem s.id) (maxH - alloc)
            linarith
          · simp only [updateMap, if_neg hi]
            exact h
        · exact ih pq' rem alloc h

/-- The map entries only decrease over the loop. -/
theorem allocLoopF_rem_le (fuel : Nat) (pq : Heap Subject) (rem : RemMap)
    (alloc maxH : ℚ) (day : ℤ) (i : ℤ) :
    (allocLoopF fuel pq rem alloc maxH day).2 i ≤ rem i := by
  rw [allocLoopF_rem_eq]
  have hpos : 0 ≤ sumStudyFor (allocLoopF fuel pq rem alloc maxH day).1 i := by
    refine sumStudyFor_nonneg _ _ fun it hit hst => ?_
    rcases allocLoopF_shape fuel pq rem alloc maxH day it hit with hs | hs
    · exact le_of_lt hs.2.2.1
    · rw [hs.1] at hst; exact absurd hst (by simp)
  linarith

theorem countP_ite_singleton (p : ScheduleItem → Bool) (c : Prop) [Decidable c]
    (a : ScheduleItem) :
    List.countP p (if c then [a] else []) = if c ∧ p a = true then 1 else 0 := by
  by_cases hc : c
  · rw [if_pos hc]
    by_cases hp : p a = true
    · simp [List.countP_cons, hp, hc]
    · simp [List.countP_cons, hp, hc]
  · simp [if_neg hc, hc]

theorem countRevAt_append (l m : List ScheduleItem) (i D : ℤ) :
    countRevAt (l ++ m) i D = countRevAt l i D + countRevAt m i D :=
  List.countP_append _ _ _

theorem countStudyAt_append (l m : List ScheduleItem) (i D : ℤ) :
    countStudyAt (l ++ m) i D = countStudyAt l i D + countStudyAt m i D :=
  List.countP_append _ _ _

theorem countRevAt_revisions (day : ℤ) (s : Subject) (i D : ℤ) :
    countRevAt (revisionItemsFor day s) i D =
      if s.id = i ∧ D < s.examDate ∧ (D = day + 1 ∨ D = day + 3 ∨ D = day + 7)
      then 1 else 0 := by
  rw [revisionItemsFor_eq]
  unfold countRevAt
  rw [List.countP_append, List.countP_append, countP_ite_singleton,
    countP_ite_singleton, countP_ite_singleton]
  simp only [decide_eq_true_eq, true_and]
  split_ifs <;> omega

theorem countStudyAt_revisions (day : ℤ) (s : Subject) (i D : ℤ) :
    countStudyAt (revisionItemsFor day s) i D = 0 := by
  unfold countStudyAt
  rw [List.countP_eq_zero]
  intro it hit
  have := (mem_revisionItemsFor day s it hit).1
  simp [this]

theorem countRevAt_cons_study (day : ℤ) (s : Subject) (ch : ℚ)
    (l : List ScheduleItem) (i D : ℤ) :
    countRevAt (studyItem day s ch :: l) i D = countRevAt l i D := by
  unfold countRevAt
  rw [List.countP_cons]
  simp [studyItem]

theorem countStudyAt_cons_study (day : ℤ) (s : Subject) (ch : ℚ)
    (l : List ScheduleItem) (i D : ℤ) :
    countStudyAt (studyItem day s ch :: l) i D =
      countStudyAt l i D + if s.id = i ∧ day = D then 1 else 0 := by
  unfold countStudyAt
  rw [List.countP_cons]
  simp only [studyItem, decide_eq_true_eq, true_and]

/-- Exact revision bookkeeping of the inner loop: provided every queued
subject carrying id `i` has exam date `E`, the revisions for `i` at `D` are
exactly one per study chunk for `i` at `D - 1`, `D - 3`, `D - 7`, kept only
when `D` strictly precedes `E`. -/
theorem allocLoopF_count (fuel : Nat) (pq : Heap Subject) (rem : RemMap)
    (alloc maxH : ℚ) (day : ℤ) (i E : ℤ)
    (hpq : ∀ x ∈ pq, (Prod.snd x).id = i → (Prod.snd x).examDate = E) (D : ℤ) :
    countRevAt (allocLoopF fuel pq rem alloc maxH day).1 i D =
      if D < E then
        countStudyAt (allocLoopF fuel pq rem alloc maxH day).1 i (D - 1) +
        countStudyAt (allocLoopF fuel pq rem alloc maxH day).1 i (D - 3) +
        countStudyAt (allocLoopF fuel pq rem alloc maxH day).1 i (D - 7)
      else 0 := by
  induction fuel generalizing pq rem alloc with
  | zero =>
    rw [allocLoopF]
    simp [countRevAt, countStudyAt]
  | succ fuel ih =>
    rw [allocLoopF]
    split
    · simp [countRevAt, countStudyAt]
    · split
      · simp [countRevAt, countStudyAt]
      · rename_i s pq' hx
        have hmem := extractMin_mem pq s pq' hx
        have hpq' : ∀ x ∈ pq', (Prod.snd x).id = i → (Prod.snd x).examDate = E :=
          fun x hx' => hpq x (hmem.2 x hx')
        have hs : s.id = i → s.examDate = E := by
          obtain ⟨p, hp⟩ := hmem.1
          exact hpq (p, s) hp
        dsimp only
        split
        · rename_i hchunk
          rw [countRevAt_cons_study, countRevAt_append, countRevAt_revisions]
          rw [countStudyAt_cons_study, countStudyAt_append, countStudyAt_revisions]
          rw [countStudyAt_cons_study, countStudyAt_append, countStudyAt_revisions]
          rw [countStudyAt_cons_study, countStudyAt_append, countStudyAt_revisions]
          rw [ih pq' _ _ hpq']
          by_cases hsi : s.id = i
          · rw [hs hsi] at *
            split_ifs <;> omega
          · split_ifs <;> omega
        · exact ih pq' rem alloc hpq'

theorem foldl_queue_mem (rem : RemMap) (day : ℤ) (l : List Subject)
    (q0 : Heap Subject) :
    ∀ x ∈ l.foldl
      (fun pq s =>
        if 0 < rem s.id then
          let dd := daysUntilExam s day
          if 0 < dd then heapInsert pq ((dd : ℚ) / s.difficulty) s else pq
        else pq)
      q0, x ∈ q0 ∨ x.2 ∈ l := by
  induction l generalizing q0 with
  | nil => intro x hx; exact Or.inl hx
  | cons s rest ih =>
    intro x hx
    rw [List.foldl_cons] at hx
    rcases ih _ x hx with h1 | h1
    · dsimp only at h1
      split at h1
      · split at h1
        · rcases heapInsert_mem _ _ _ x h1 with h2 | h2
          · exact Or.inl h2
          · right; rw [h2]; exact List.mem_cons_self _ _
        · exact Or.inl h1
      · exact Or.inl h1
    · exact Or.inr (List.mem_cons_of_mem _ h1)

theorem buildQueue_mem (sorted : List Subject) (rem : RemMap) (day : ℤ) :
    ∀ x ∈ buildQueue sorted rem day, x.2 ∈ sorted := by
  intro x hx
  rcases foldl_queue_mem rem day sorted [] x hx with h1 | h1
  · cases h1
  · exact h1

/-- Items of every simulated day have the shape of `allocLoopF_shape`, with
dates no earlier than the day the run starts at. -/
theorem runDays_shape (n : Nat) (sorted : List Subject) (rem : RemMap) (t : ℤ)
    (maxH : ℚ) :
    ∀ it ∈ runDays n sorted rem t maxH,
      (it.type = ItemType.study ∧ t ≤ it.date ∧ 0 < it.hours ∧ it.hours ≤ 2) ∨
      (it.type = ItemType.revision ∧ it.hours = 1 / 2 ∧ t < it.date) := by
  induction n generalizing rem t with
  | zero => intro it hit; cases hit
  | succ n ih =>
    intro it hit
    rw [runDays] at hit
    rcases List.mem_append.1 hit with h1 | h1
    · rcases allocLoopF_shape _ _ _ _ _ _ it h1 with hs | hs
      · exact Or.inl ⟨hs.1, le_of_eq hs.2.1.symm, hs.2.2⟩
      · exact Or.inr hs
    · rcases ih _ _ it h1 with hs | hs
      · exact Or.inl ⟨hs.1, by linarith [hs.2.1], hs.2.2⟩
      · exact Or.inr ⟨hs.1, hs.2.1, by linarith [hs.2.2]⟩

/-- Daily capacity across the whole run: on any date the study hours sum to
at most the daily maximum. -/
theorem runDays_capacity (n : Nat) (sorted : List Subject) (rem : RemMap)
    (t : ℤ) (maxH : ℚ) (h : 0 ≤ maxH) (D : ℤ) :
    sumStudyOn (runDays n sorted rem t maxH) D ≤ maxH := by
  induction n generalizing rem t with
  | zero => rw [runDays, sumStudyOn_nil]; exact h
  | succ n ih =>
    rw [runDays, sumStudyOn_append]
    by_cases hD : D = t
    · subst hD
      have h1 : sumStudyOn (runDay sorted rem D maxH).1 D ≤ maxH - 0 :=
        allocLoopF_sum _ _ _ _ _ _ (by linarith)
      have h2 : sumStudyOn (runDays n sorted (runDay sorted rem D maxH).2
          (D + 1) maxH) D = 0 := by
        refine sumStudyOn_eq_zero _ _ fun it hit hst => ?_
        rcases runDays_shape _ _ _ _ _ it hit with hs | hs
        · intro hdate; rw [hdate] at hs; linarith [hs.2.1]
        · rw [hs.1] at hst; exact absurd hst (by simp)
      rw [h2]
      linarith
    · have h1 : sumStudyOn (runDay sorted rem t maxH).1 D = 0 := by
        refine sumStudyOn_eq_zero _ _ fun it hit hst => ?_
        rcases allocLoopF_shape _ _ _ _ _ _ it hit with hs | hs
        · rw [hs.2.1]; exact fun ht => hD ht.symm
        · rw [hs.1] at hst; exact absurd hst (by simp)
      rw [h1]
      have := ih (runDay sorted rem t maxH).2 (t + 1)
      linarith

/-- Conservation across the whole run: the study hours emitted for id `i`
are exactly the initial map entry minus the final one. -/
theorem runDays_rem (n : Nat) (sorted : List Subject) (rem : RemMap) (t : ℤ)
    (maxH : ℚ) (i : ℤ) :
    sumStudyFor (runDays n sorted rem t maxH) i =
      rem i - stateAt sorted rem t maxH n i := by
  induction n generalizing rem t with
  | zero => rw [runDays, sumStudyFor_nil, stateAt]; ring
  | succ n ih =>
    rw [runDays, sumStudyFor_append, stateAt]
    have h1 : (runDay sorted rem t maxH).2 i =
        rem i - sumStudyFor (runDay sorted rem t maxH).1 i :=
      allocLoopF_rem_eq _ _ _ _ _ _ _
    have h2 := ih (runDay sorted rem t maxH).2 (t + 1)
    rw [h2]
    linarith

/-- Map entries stay nonnegative through the days. -/
theorem stateAt_nonneg (n : Nat) (sorted : List Subject) (rem : RemMap)
    (t : ℤ) (maxH : ℚ) (i : ℤ) (h : 0 ≤ rem i) :
    0 ≤ stateAt sorted rem t maxH n i := by
  induction n generalizing rem t with
  | zero => exact h
  | succ n ih =>
    rw [stateAt]
    exact ih _ _ (allocLoopF_rem_nonneg _ _ _ _ _ _ _ h)

/-- Map entries only decrease from one day to the next. -/
theorem stateAt_succ_le (n : Nat) (sorted : List Subject) (rem : RemMap)
    (t : ℤ) (maxH : ℚ) (i : ℤ) :
    stateAt sorted rem t maxH (n + 1) i ≤ stateAt sorted rem t maxH n i := by
  induction n generalizing rem t with
  | zero =>
    rw [stateAt, stateAt, stateAt]
    exact allocLoopF_rem_le _ _ _ _ _ _ _
  | succ n ih =>
    rw [stateAt, stateAt]
    exact ih _ _

/-- Exact revision bookkeeping across the whole run (see `allocLoopF_count`). -/
theorem runDays_count (n : Nat) (sorted : List Subject) (rem : RemMap) (t : ℤ)
    (maxH : ℚ) (i E : ℤ) (hsub : ∀ s ∈ sorted, s.id = i → s.examDate = E)
    (D : ℤ) :
    countRevAt (runDays n sorted rem t maxH) i D =
      if D < E then
        countStudyAt (runDays n sorted rem t maxH) i (D - 1) +
        countStudyAt (runDays n sorted rem t maxH) i (D - 3) +
        countStudyAt (runDays n sorted rem t maxH) i (D - 7)
      else 0 := by
  induction n generalizing rem t with
  | zero =>
    rw [runDays]
    simp only [countRevAt, countStudyAt, List.countP_nil]
    split_ifs <;> rfl
  | succ n ih =>
    rw [runDays, countRevAt_append, countStudyAt_append, countStudyAt_append,
      countStudyAt_append]
    have hday := allocLoopF_count (buildQueue sorted rem t).length
      (buildQueue sorted rem t) rem 0 maxH t i E
      (fun x hx hxi => hsub x.2 (buildQueue_mem sorted rem t x hx) hxi) D
    have hrest := ih (runDay sorted rem t maxH).2 (t + 1)
    rw [runDay] at *
    rw [← allocLoop] at hday
    rw [hday, hrest]
    split_ifs <;> omega

theorem subjOrder_total (a b : Subject) : subjOrder a b ∨ subjOrder b a := by
  unfold subjOrder
  rcases lt_trichotomy a.examDate b.examDate with h | h | h
  · exact Or.inl (Or.inl h)
  · rcases le_total a.difficulty b.difficulty with h2 | h2
    · exact Or.inr (Or.inr ⟨h.symm, h2⟩)
    · exact Or.inl (Or.inr ⟨h, h2⟩)
  · exact Or.inr (Or.inl h)

theorem subjOrder_trans (a b c : Subject) (h1 : subjOrder a b)
    (h2 : subjOrder b c) : subjOrder a c := by
  unfold subjOrder at *
  rcases h1 with h1 | ⟨h1, h1d⟩ <;> rcases h2 with h2 | ⟨h2, h2d⟩
  · exact Or.inl (lt_trans h1 h2)
  · exact Or.inl (h2 ▸ h1)
  · exact Or.inl (h1 ▸ h2)
  · exact Or.inr ⟨h1.trans h2, le_trans h2d h1d⟩

theorem takeLeft_subjOrder (a b : Subject) (h : takeLeft a b) : subjOrder a b := by
  rcases h with h | ⟨h1, h2⟩
  · exact Or.inl h
  · exact Or.inr ⟨h1, le_of_lt h2⟩

theorem not_takeLeft_subjOrder (a b : Subject) (h : ¬ takeLeft a b) :
    subjOrder b a := by
  unfold takeLeft at h
  push_neg at h
  rcases lt_trichotomy a.examDate b.examDate with h1 | h1 | h1
  · exact absurd h1 (not_lt.2 h.1)
  · exact Or.inr ⟨h1.symm, h.2 h1⟩
  · exact Or.inl h1

theorem mergeSubjF_perm (fuel : Nat) (l r : List Subject)
    (hf : l.length + r.length ≤ fuel) : (mergeSubjF fuel l r).Perm (l ++ r) := by
  induction fuel generalizing l r with
  | zero =>
    match l, r with
    | [], r => simp [mergeSubjF]
    | x :: xs, [] => simp [mergeSubjF]
    | x :: xs, y :: ys => simp at hf
  | succ fuel ih =>
    match l, r with
    | [], r => simp [mergeSubjF]
    | x :: xs, [] => simp [mergeSubjF]
    | x :: xs, y :: ys =>
      rw [mergeSubjF]
      split
      · have := ih xs (y :: ys) (by simp at hf ⊢; omega)
        exact this.cons x
      · have h0 := ih (x :: xs) ys (by simp at hf ⊢; omega)
        have h1 : (y :: mergeSubjF fuel (x :: xs) ys).Perm
            (y :: ((x :: xs) ++ ys)) := h0.cons y
        exact h1.trans List.perm_middle.symm

theorem mergeSubj_perm (l r : List Subject) : (mergeSubj l r).Perm (l ++ r) :=
  mergeSubjF_perm _ l r (le_refl _)

theorem mergeSubjF_sorted (fuel : Nat) (l r : List Subject)
    (hf : l.length + r.length ≤ fuel) (hl : l.Pairwise subjOrder)
    (hr : r.Pairwise subjOrder) : (mergeSubjF fuel l r).Pairwise subjOrder := by
  induction fuel generalizing l r with
  | zero =>
    match l, r with
    | [], r => simpa [mergeSubjF] using hr
    | x :: xs, [] => simpa [mergeSubjF] using hl
    | x :: xs, y :: ys => simp at hf
  | succ fuel ih =>
    match l, r with
    | [], r => simpa [mergeSubjF] using hr
    | x :: xs, [] => simpa [mergeSubjF] using hl
    | x :: xs, y :: ys =>
      rw [mergeSubjF]
      rw [List.pairwise_cons] at hl hr
      split
      · rename_i hc
        rw [List.pairwise_cons]
        have hfuel : xs.length + (y :: ys).length ≤ fuel := by simp at hf ⊢; omega
        refine ⟨?_, ih xs (y :: ys) hfuel hl.2 (List.pairwise_cons.2 hr)⟩
        intro b hb
        have hb' := (mergeSubjF_perm fuel xs (y :: ys) hfuel).mem_iff.1 hb
        rcases List.mem_append.1 hb' with h1 | h1
        · exact hl.1 b h1
        · rcases List.mem_cons.1 h1 with h2 | h2
          · exact h2 ▸ takeLeft_subjOrder x y hc
          · exact subjOrder_trans _ _ _ (takeLeft_subjOrder x y hc) (hr.1 b h2)
      · rename_i hc
        rw [List.pairwise_cons]
        have hfuel : (x :: xs).length + ys.length ≤ fuel := by simp at hf ⊢; omega
        refine ⟨?_, ih (x :: xs) ys hfuel (List.pairwise_cons.2 hl) hr.2⟩
        intro b hb
        have hb' := (mergeSubjF_perm fuel (x :: xs) ys hfuel).mem_iff.1 hb
        have hyx := not_takeLeft_subjOrder x y hc
        rcases List.mem_append.1 hb' with h1 | h1
        · rcases List.mem_cons.1 h1 with h2 | h2
          · exact h2 ▸ hyx
          · exact subjOrder_trans _ _ _ hyx (hl.1 b h2)
        · exact hr.1 b h1

theorem mergeSortF_perm (fuel : Nat) (l : List Subject) :
    (mergeSortF fuel l).Perm l := by
  induction fuel generalizing l with
  | zero => exact List.Perm.refl l
  | succ fuel ih =>
    rw [mergeSortF]
    split
    · exact List.Perm.refl l
    · have h1 := mergeSubj_perm (mergeSortF fuel (l.take (l.length / 2)))
        (mergeSortF fuel (l.drop (l.length / 2)))
      have h2 := h1.trans ((ih (l.take (l.length / 2))).append
        (ih (l.drop (l.length / 2))))
      rw [List.take_append_drop] at h2
      exact h2

theorem mergeSortF_sorted (fuel : Nat) (l : List Subject)
    (hf : l.length ≤ fuel) : (mergeSortF fuel l).Pairwise subjOrder := by
  induction fuel generalizing l with
  | zero =>
    have : l = [] := List.eq_nil_of_length_eq_zero (Nat.le_zero.1 hf)
    rw [this]
    exact List.Pairwise.nil
  | succ fuel ih =>
    rw [mergeSortF]
    split
    · rename_i h1
      match l, h1 with
      | [], _ => exact List.Pairwise.nil
      | [x], _ => exact List.pairwise_singleton _ x
    · rename_i h1
      have h2 : 2 ≤ l.length := by omega
      have ht : (l.take (l.length / 2)).length ≤ fuel := by
        simp only [List.length_take]
        omega
      have hd : (l.drop (l.length / 2)).length ≤ fuel := by
        simp only [List.length_drop]
        omega
      have hlen1 := (mergeSortF_perm fuel (l.take (l.length / 2))).length_eq
      have hlen2 := (mergeSortF_perm fuel (l.drop (l.length / 2))).length_eq
      exact mergeSubjF_sorted _ _ _ (by omega) (ih _ ht) (ih _ hd)

theorem mergeSortSubjects_perm (subjects : List Subject) :
    (mergeSortSubjects subjects).Perm subjects :=
  mergeSortF_perm _ _

theorem mergeSortSubjects_sorted (subjects : List Subject) :
    (mergeSortSubjects subjects).Pairwise subjOrder :=
  mergeSortF_sorted _ _ (le_refl _)

theorem foldl_buildRem_ne (l : List Subject) (m : RemMap) (i : ℤ)
    (h : ∀ s ∈ l, s.id ≠ i) :
    l.foldl (fun m s => updateMap m s.id s.estimatedHours) m i = m i := by
  induction l generalizing m with
  | nil => rfl
  | cons x rest ih =>
    rw [List.foldl_cons, ih _ fun s hs => h s (List.mem_cons_of_mem _ hs)]
    exact if_neg fun he => h x (List.mem_cons_self _ _) he.symm

theorem foldl_buildRem_mem (l : List Subject) (m : RemMap)
    (hnd : (l.map Subject.id).Nodup) (s : Subject) (hs : s ∈ l) :
    l.foldl (fun m s => updateMap m s.id s.estimatedHours) m s.id =
      s.estimatedHours := by
  induction l generalizing m with
  | nil => cases hs
  | cons x rest ih =>
    rw [List.map_cons, List.nodup_cons] at hnd
    rcases List.mem_cons.1 hs with h1 | h1
    · subst h1
      rw [List.foldl_cons, foldl_buildRem_ne]
      · simp [updateMap]
      · intro s2 hs2 he
        exact hnd.1 (he ▸ List.mem_map_of_mem Subject.id hs2)
    · exact List.foldl_cons _ _ ▸ ih _ hnd.2 h1

/-- Under distinct ids, the initial remaining-hours map assigns each subject
its own `estimatedHours`. -/
theorem buildRem_nodup (l : List Subject) (hnd : (l.map Subject.id).Nodup)
    (s : Subject) (hs : s ∈ l) : buildRem l s.id = s.estimatedHours :=
  foldl_buildRem_mem l _ hnd s hs

theorem foldl_buildRem_nonneg (l : List Subject) (m : RemMap) (i : ℤ)
    (hm : 0 ≤ m i) (h : ∀ s ∈ l, 0 ≤ s.estimatedHours) :
    0 ≤ l.foldl (fun m s => updateMap m s.id s.estimatedHours) m i := by
  induction l generalizing m with
  | nil => exact hm
  | cons x rest ih =>
    rw [List.foldl_cons]
    refine ih _ ?_ fun s hs => h s (List.mem_cons_of_mem _ hs)
    by_cases hi : i = x.id
    · simpa [updateMap, hi] using h x (List.mem_cons_self _ _)
    · simpa [updateMap, hi] using hm

theorem buildRem_nonneg (l : List Subject) (i : ℤ)
    (h : ∀ s ∈ l, 0 ≤ s.estimatedHours) : 0 ≤ buildRem l i :=
  foldl_buildRem_nonneg l _ i (le_refl 0) h

theorem filterStudyOn_nil (D : ℤ) : filterStudyOn [] D = [] := rfl

theorem filterStudyOn_append (l m : List ScheduleItem) (D : ℤ) :
    filterStudyOn (l ++ m) D = filterStudyOn l D ++ filterStudyOn m D := by
  simp [filterStudyOn]

theorem filterStudyOn_eq_nil (l : List ScheduleItem) (D : ℤ)
    (h : ∀ it ∈ l, it.type = ItemType.study → it.date ≠ D) :
    filterStudyOn l D = [] := by
  unfold filterStudyOn
  rw [List.filter_eq_nil_iff]
  intro it hit
  simp only [decide_eq_true_eq, not_and]
  exact h it hit

theorem filterStudyOn_revisions (day : ℤ) (s : Subject) (D : ℤ) :
    filterStudyOn (revisionItemsFor day s) D = [] :=
  filterStudyOn_eq_nil _ _ fun it hit hst => by
    have := (mem_revisionItemsFor day s it hit).1
    rw [this] at hst
    exact absurd hst (by simp)

theorem filterStudyOn_cons_study (day : ℤ) (s : Subject) (ch : ℚ)
    (l : List ScheduleItem) :
    filterStudyOn (studyItem day s ch :: l) day =
      studyItem day s ch :: filterStudyOn l day := by
  unfold filterStudyOn
  rw [List.filter_cons]
  simp [studyItem]

/-- Study items of later days never land on an earlier date. -/
theorem filterStudyOn_runDays_early (n : Nat) (sorted : List Subject)
    (rem : RemMap) (t : ℤ) (maxH : ℚ) (D : ℤ) (hD : D < t) :
    filterStudyOn (runDays n sorted rem t maxH) D = [] :=
  filterStudyOn_eq_nil _ _ fun it hit hst => by
    rcases runDays_shape n sorted rem t maxH it hit with hs | hs
    · intro hdate; rw [hdate] at hs; linarith [hs.2.1]
    · rw [hs.1] at hst; exact absurd hst (by simp)

/-- The study items a run emits on day `t + j` are exactly the study items of
the `j`-th simulated day, run from the remaining-hours state at day `j`. -/
theorem runDays_filterStudy (n : Nat) (sorted : List Subject) (rem : RemMap)
    (t : ℤ) (maxH : ℚ) (j : Nat) (hj : j < n) :
    filterStudyOn (runDays n sorted rem t maxH) (t + (j : ℤ)) =
      filterStudyOn
        (runDay sorted (stateAt sorted rem t maxH j) (t + (j : ℤ)) maxH).1
        (t + (j : ℤ)) := by
  induction n generalizing rem t j with
  | zero => omega
  | succ n ih =>
    rw [runDays, filterStudyOn_append]
    match j with
    | 0 =>
      have h2 : filterStudyOn (runDays n sorted (runDay sorted rem t maxH).2
          (t + 1) maxH) (t + (0 : ℕ)) = [] := by
        refine filterStudyOn_runDays_early _ _ _ _ _ _ ?_
        push_cast
        omega
      rw [h2, List.append_nil, stateAt]
      norm_num
    | j + 1 =>
      have h1 : filterStudyOn (runDay sorted rem t maxH).1 (t + ((j : ℤ) + 1)) = [] := by
        refine filterStudyOn_eq_nil _ _ fun it hit hst => ?_
        rcases allocLoopF_shape _ _ _ _ _ _ it hit with hs | hs
        · rw [hs.2.1]; intro he; omega
        · rw [hs.1] at hst; exact absurd hst (by simp)
      have h2 := ih (runDay sorted rem t maxH).2 (t + 1) j (by omega)
      have h3 : (t + 1) + (j : ℤ) = t + ((j : ℤ) + 1) := by ring
      rw [h3] at h2
      push_cast
      rw [h1, List.nil_append, h2, stateAt]

theorem daysUntilExam_pos (s : Subject) (day : ℤ) : 0 < daysUntilExam s day :=
  lt_of_lt_of_le one_pos (le_max_left _ _)

theorem heapInsert_nil [Inhabited α] (p : ℚ) (v : α) :
    heapInsert ([] : Heap α) p v = [(p, v)] := rfl

theorem heapInsert_single [Inhabited α] (x : ℚ × α) (p : ℚ) (v : α)
    (h : ¬ p < x.1) : heapInsert [x] p v = [x, (p, v)] := by
  unfold heapInsert heapifyUp
  show heapifyUpF 1 [x, (p, v)] 1 = [x, (p, v)]
  rw [heapifyUpF]
  rw [if_neg (by omega)]
  dsimp only
  rw [if_neg (by simpa using h)]

theorem extractMin_single [Inhabited α] (x : ℚ × α) :
    extractMin [x] = some (x.2, []) := rfl

theorem extractMin_pair [Inhabited α] (x y : ℚ × α) :
    extractMin [x, y] = some (x.2, [y]) := rfl

/-- One simulated day with a single subject: if it has remaining hours it
receives one chunk of `min 2 (min remaining maxH)` plus its revisions,
otherwise nothing happens. -/
theorem runDay_single (a : Subject) (rem : RemMap) (day : ℤ) (maxH : ℚ)
    (hmax : 0 < maxH) :
    runDay [a] rem day maxH =
      if 0 < rem a.id then
        (studyItem day a (min 2 (min (rem a.id) maxH)) :: revisionItemsFor day a,
         updateMap rem a.id (rem a.id - min 2 (min (rem a.id) maxH)))
      else ([], rem) := by
  unfold runDay buildQueue
  rw [List.foldl_cons, List.foldl_nil]
  by_cases h0 : 0 < rem a.id
  · rw [if_pos h0, if_pos h0]
    dsimp only
    rw [if_pos (daysUntilExam_pos a day), heapInsert_nil]
    unfold allocLoop
    show allocLoopF 1 _ rem 0 maxH day = _
    rw [allocLoopF]
    rw [if_neg (by simp [hmax])]
    rw [extractMin_single]
    dsimp only
    rw [sub_zero]
    rw [if_pos (lt_min_iff.2 ⟨two_pos, lt_min_iff.2 ⟨h0, hmax⟩⟩)]
    rw [allocLoopF]
    simp
  · rw [if_neg h0, if_neg h0]
    rfl

/-- One simulated day with exactly two queued-in-order subjects where `a`'s
urgency is strictly lower than `b`'s: `a` is extracted and served first, and
`b` receives a chunk only if `a` left remaining daily capacity (or was not
eligible at all). -/
theorem runDay_pair (a b : Subject) (rem : RemMap) (day : ℤ) (maxH : ℚ)
    (hid : a.id ≠ b.id)
    (hp : (daysUntilExam a day : ℚ) / a.difficulty <
      (daysUntilExam b day : ℚ) / b.difficulty)
    (hmax : 0 < maxH) :
    (filterStudyOn (runDay [a, b] rem day maxH).1 day).map
        (fun it => it.subjectId) =
      (if 0 < rem a.id then [a.id] else []) ++
      (if 0 < rem b.id ∧
          (if 0 < rem a.id then min 2 (min (rem a.id) maxH) else 0) < maxH
       then [b.id] else []) := by
  unfold runDay buildQueue
  rw [List.foldl_cons, List.foldl_cons, List.foldl_nil]
  by_cases hA : 0 < rem a.id <;> by_cases hB : 0 < rem b.id
  · rw [if_pos hA, if_pos hA, if_pos hA]
    dsimp only
    rw [if_pos (daysUntilExam_pos a day), heapInsert_nil, if_pos hB,
      if_pos (daysUntilExam_pos b day)]
    rw [heapInsert_single _ _ _ (not_lt.2 (le_of_lt hp))]
    unfold allocLoop
    show (filterStudyOn (allocLoopF 2 _ rem 0 maxH day).1 day).map _ = _
    rw [allocLoopF]
    rw [if_neg (by simp [hmax])]
    rw [extractMin_pair]
    dsimp only
    rw [sub_zero]
    rw [if_pos (lt_min_iff.2 ⟨two_pos, lt_min_iff.2 ⟨hA, hmax⟩⟩)]
    dsimp only
    rw [filterStudyOn_cons_study, filterStudyOn_append, filterStudyOn_revisions,
      List.nil_append, List.map_cons]
    by_cases hcap : 0 + min 2 (min (rem a.id) maxH) < maxH
    · rw [allocLoopF]
      rw [if_neg (fun h => h.elim (List.cons_ne_nil _ _) (fun h2 => h2 hcap))]
      rw [extractMin_single]
      dsimp only
      have hb2 : updateMap rem a.id (rem a.id - min 2 (min (rem a.id) maxH))
          b.id = rem b.id := by
        unfold updateMap
        exact if_neg fun h => hid h.symm
      rw [hb2]
      rw [if_pos (lt_min_iff.2 ⟨two_pos, lt_min_iff.2 ⟨hB, by linarith⟩⟩)]
      dsimp only
      rw [filterStudyOn_cons_study, filterStudyOn_append, filterStudyOn_revisions,
        List.nil_append, List.map_cons]
      simp only [allocLoopF]
      rw [filterStudyOn_nil, List.map_nil]
      rw [if_pos ⟨hB, by linarith⟩]
      rfl
    · rw [allocLoopF]
      rw [if_pos (Or.inr hcap)]
      dsimp only
      rw [filterStudyOn_nil, List.map_nil]
      rw [if_neg (fun hh => hcap (by rw [zero_add]; exact hh.2))]
      rfl
  · rw [if_pos hA, if_pos hA, if_pos hA]
    dsimp only
    rw [if_pos (daysUntilExam_pos a day), heapInsert_nil, if_neg hB]
    unfold allocLoop
    show (filterStudyOn (allocLoopF 1 _ rem 0 maxH day).1 day).map _ = _
    rw [allocLoopF]
    rw [if_neg (by simp [hmax])]
    rw [extractMin_single]
    dsimp only
    rw [sub_zero]
    rw [if_pos (lt_min_iff.2 ⟨two_pos, lt_min_iff.2 ⟨hA, hmax⟩⟩)]
    dsimp only
    rw [filterStudyOn_cons_study, filterStudyOn_append, filterStudyOn_revisions,
      List.nil_append, List.map_cons]
    simp only [allocLoopF]
    rw [filterStudyOn_nil, List.map_nil]
    rw [if_neg (by simp [hB])]
    rfl
  · rw [if_neg hA, if_neg hA, if_neg hA]
    rw [if_pos hB]
    dsimp only
    rw [if_pos (daysUntilExam_pos b day), heapInsert_nil]
    unfold allocLoop
    show (filterStudyOn (allocLoopF 1 _ rem 0 maxH day).1 day).map _ = _
    rw [allocLoopF]
    rw [if_neg (by simp [hmax])]
    rw [extractMin_single]
    dsimp only
    rw [sub_zero]
    rw [if_pos (lt_min_iff.2 ⟨two_pos, lt_min_iff.2 ⟨hB, hmax⟩⟩)]
    dsimp only
    rw [filterStudyOn_cons_study, filterStudyOn_append, filterStudyOn_revisions,
      List.nil_append, List.map_cons]
    simp only [allocLoopF]
    rw [filterStudyOn_nil, List.map_nil]
    rw [if_pos ⟨hB, hmax⟩]
    rfl
  · rw [if_neg hA, if_neg hA, if_neg hA, if_neg hB]
    rw [if_neg (by simp [hB])]
    rfl

theorem isHalfUnit_iff (q : ℚ) : isHalfUnit q ↔ ∃ k : ℤ, q = (k : ℚ) / 2 := by
  unfold isHalfUnit
  rw [Rat.den_eq_one_iff]
  constructor
  · intro h
    refine ⟨(2 * q).num, ?_⟩
    rw [h]
    ring
  · intro ⟨k, hk⟩
    rw [hk]
    have h2 : (2 : ℚ) * ((k : ℚ) / 2) = (k : ℚ) := by ring
    rw [h2]
    simp

theorem isHalfUnit_min (a b : ℚ) (ha : isHalfUnit a) (hb : isHalfUnit b) :
    isHalfUnit (min a b) := by
  rw [isHalfUnit_iff] at *
  obtain ⟨k, hk⟩ := ha
  obtain ⟨m, hm⟩ := hb
  refine ⟨min k m, ?_⟩
  rw [hk, hm, min_div_div_right (by norm_num : (0:ℚ) ≤ 2)]
  norm_cast

theorem isHalfUnit_sub (a b : ℚ) (ha : isHalfUnit a) (hb : isHalfUnit b) :
    isHalfUnit (a - b) := by
  rw [isHalfUnit_iff] at *
  obtain ⟨k, hk⟩ := ha
  obtain ⟨m, hm⟩ := hb
  refine ⟨k - m, ?_⟩
  rw [hk, hm]
  push_cast
  ring

theorem isHalfUnit_add (a b : ℚ) (ha : isHalfUnit a) (hb : isHalfUnit b) :
    isHalfUnit (a + b) := by
  rw [isHalfUnit_iff] at *
  obtain ⟨k, hk⟩ := ha
  obtain ⟨m, hm⟩ := hb
  refine ⟨k + m, ?_⟩
  rw [hk, hm]
  push_cast
  ring

theorem isHalfUnit_two : isHalfUnit (2 : ℚ) := by
  rw [isHalfUnit_iff]
  exact ⟨4, by norm_num⟩

theorem isHalfUnit_zero : isHalfUnit (0 : ℚ) := by
  rw [isHalfUnit_iff]
  exact ⟨0, by norm_num⟩

/-- The chunks the inner loop cuts are half units whenever the map, the cap
and the already-allocated total are. -/
theorem allocLoopF_halfUnit (fuel : Nat) (pq : Heap Subject) (rem : RemMap)
    (alloc maxH : ℚ) (day : ℤ) (hrem : ∀ i, isHalfUnit (rem i))
    (halloc : isHalfUnit alloc) (hmaxH : isHalfUnit maxH) :
    (∀ it ∈ (allocLoopF fuel pq rem alloc maxH day).1,
      it.type = ItemType.study → isHalfUnit it.hours) ∧
    (∀ i, isHalfUnit ((allocLoopF fuel pq rem alloc maxH day).2 i)) := by
  induction fuel generalizing pq rem alloc with
  | zero =>
    rw [allocLoopF]
    exact ⟨fun it hit => absurd hit (List.not_mem_nil it), hrem⟩
  | succ fuel ih =>
    rw [allocLoopF]
    split
    · exact ⟨fun it hit => absurd hit (List.not_mem_nil it), hrem⟩
    · split
      · exact ⟨fun it hit => absurd hit (List.not_mem_nil it), hrem⟩
      · rename_i s pq' hx
        dsimp only
        split
        · rename_i hchunk
          have hch : isHalfUnit (min 2 (min (rem s.id) (maxH - alloc))) :=
            isHalfUnit_min _ _ isHalfUnit_two
              (isHalfUnit_min _ _ (hrem s.id) (isHalfUnit_sub _ _ hmaxH halloc))
          have hrem2 : ∀ i, isHalfUnit
              (updateMap rem s.id (rem s.id - min 2 (min (rem s.id) (maxH - alloc))) i) := by
            intro i
            unfold updateMap
            split
            · exact isHalfUnit_sub _ _ (hrem s.id) hch
            · exact hrem i
          have hrec := ih pq' _ _ hrem2 (isHalfUnit_add _ _ halloc hch)
          refine ⟨fun it hit hst => ?_, hrec.2⟩
          rcases List.mem_cons.1 hit with h1 | h1
          · rw [h1]
            exact hch
          · rcases List.mem_append.1 h1 with h2 | h2
            · rw [(mem_revisionItemsFor day s it h2).1] at hst
              exact absurd hst (by simp)
            · exact hrec.1 it h2 hst
        · exact ih pq' rem alloc hrem halloc

/-- An id whose map entry is not positive receives no item from the inner
loop, and its entry is untouched. -/
theorem allocLoopF_zero_id (fuel : Nat) (pq : Heap Subject) (rem : RemMap)
    (alloc maxH : ℚ) (day : ℤ) (i : ℤ) (hrem : rem i ≤ 0) :
    (∀ it ∈ (allocLoopF fuel pq rem alloc maxH day).1, it.subjectId ≠ i) ∧
    (allocLoopF fuel pq rem alloc maxH day).2 i = rem i := by
  induction fuel generalizing pq rem alloc with
  | zero =>
    rw [allocLoopF]
    exact ⟨fun it hit => absurd hit (List.not_mem_nil it), rfl⟩
  | succ fuel ih =>
    rw [allocLoopF]
    split
    · exact ⟨fun it hit => absurd hit (List.not_mem_nil it), rfl⟩
    · split
      · exact ⟨fun it hit => absurd hit (List.not_mem_nil it), rfl⟩
      · rename_i s pq' hx
        dsimp only
        split
        · rename_i hchunk
          have hsi : s.id ≠ i := by
            intro he
            rw [he] at hchunk
            have := chunk_le_rem (rem i) (maxH - alloc)
            linarith
          have hrem2 : updateMap rem s.id
              (rem s.id - min 2 (min (rem s.id) (maxH - alloc))) i = rem i := by
            unfold updateMap
            exact if_neg fun he => hsi he.symm
          have hrec := ih pq'
            (updateMap rem s.id (rem s.id - min 2 (min (rem s.id) (maxH - alloc))))
            (alloc + min 2 (min (rem s.id) (maxH - alloc)))
            (by rw [hrem2]; exact hrem)
          refine ⟨fun it hit => ?_, by rw [hrec.2, hrem2]⟩
          rcases List.mem_cons.1 hit with h1 | h1
          · rw [h1]
            exact hsi
          · rcases List.mem_append.1 h1 with h2 | h2
            · rw [(mem_revisionItemsFor day s it h2).2.2.1]
              exact hsi
            · exact hrec.1 it h2
        · exact ih pq' rem alloc hrem

/-- Across the whole run, an id with a non-positive initial entry receives
no schedule item at all. -/
theorem runDays_zero_id (n : Nat) (sorted : List Subject) (rem : RemMap)
    (t : ℤ) (maxH : ℚ) (i : ℤ) (hrem : rem i ≤ 0) :
    ∀ it ∈ runDays n sorted rem t maxH, it.subjectId ≠ i := by
  induction n generalizing rem t with
  | zero => intro it hit; cases hit
  | succ n ih =>
    intro it hit
    rw [runDays] at hit
    rcases List.mem_append.1 hit with h1 | h1
    · exact (allocLoopF_zero_id _ _ _ _ _ _ _ hrem).1 it h1
    · refine ih _ (t + 1) ?_ it h1
      rw [runDay, allocLoop, (allocLoopF_zero_id _ _ _ _ _ _ _ hrem).2]
      exact hrem

theorem foldl_buildRem_halfUnit (l : List Subject) (m : RemMap) (i : ℤ)
    (hm : isHalfUnit (m i)) (h : ∀ s ∈ l, isHalfUnit s.estimatedHours) :
    isHalfUnit (l.foldl (fun m s => updateMap m s.id s.estimatedHours) m i) := by
  induction l generalizing m with
  | nil => exact hm
  | cons x rest ih =>
    rw [List.foldl_cons]
    refine ih _ ?_ fun s hs => h s (List.mem_cons_of_mem _ hs)
    unfold updateMap
    split
    · exact h x (List.mem_cons_self _ _)
    · exact hm

theorem buildRem_halfUnit (l : List Subject) (i : ℤ)
    (h : ∀ s ∈ l, isHalfUnit s.estimatedHours) : isHalfUnit (buildRem l i) :=
  foldl_buildRem_halfUnit l _ i isHalfUnit_zero h

/-- Across the whole run, study chunks stay half units whenever the map and
the cap are half units. -/
theorem runDays_halfUnit (n : Nat) (sorted : List Subject) (rem : RemMap)
    (t : ℤ) (maxH : ℚ) (hrem : ∀ i, isHalfUnit (rem i))
    (hmaxH : isHalfUnit maxH) :
    ∀ it ∈ runDays n sorted rem t maxH,
      it.type = ItemType.study → isHalfUnit it.hours := by
  induction n generalizing rem t with
  | zero => intro it hit; cases hit
  | succ n ih =>
    intro it hit
    rw [runDays] at hit
    rcases List.mem_append.1 hit with h1 | h1
    · exact (allocLoopF_halfUnit _ _ _ _ _ _ hrem isHalfUnit_zero hmaxH).1 it h1
    · refine ih (runDay sorted rem t maxH).2 (t + 1) ?_ it h1
      intro i
      rw [runDay, allocLoop]
      exact (allocLoopF_halfUnit _ _ _ _ _ _ hrem isHalfUnit_zero hmaxH).2 i

/-- The queue over a single subject. -/
theorem buildQueue_single (a : Subject) (rem : RemMap) (day : ℤ) :
    buildQueue [a] rem day =
      if 0 < rem a.id then
        [((daysUntilExam a day : ℚ) / a.difficulty, a)] else [] := by
  unfold buildQueue
  rw [List.foldl_cons, List.foldl_nil]
  by_cases h0 : 0 < rem a.id
  · rw [if_pos h0, if_pos h0]
    dsimp only
    rw [if_pos (daysUntilExam_pos a day), heapInsert_nil]
  · rw [if_neg h0, if_neg h0]

/-- Sorting exactly two subjects with equal exam dates and `b` strictly
easier than `a` puts `a` first, whatever the input order. -/
theorem mergeSortSubjects_pair (a b : Subject) (hexam : a.examDate = b.examDate)
    (hdiff : b.difficulty < a.difficulty) :
    mergeSortSubjects [a, b] = [a, b] ∧ mergeSortSubjects [b, a] = [a, b] := by
  have hab : takeLeft a b := Or.inr ⟨hexam, hdiff⟩
  have hba : ¬ takeLeft b a := by
    intro h
    rcases h with h | ⟨h1, h2⟩
    · rw [hexam] at h; exact lt_irrefl _ h
    · exact absurd h2 (not_lt.2 (le_of_lt hdiff))
  constructor
  · show mergeSortF 2 [a, b] = [a, b]
    rw [mergeSortF]
    rw [if_neg (by simp)]
    have htake : List.take ([a, b].length / 2) [a, b] = [a] := by simp
    have hdrop : List.drop ([a, b].length / 2) [a, b] = [b] := by simp
    rw [htake, hdrop]
    have hs1 : mergeSortF 1 [a] = [a] := by rw [mergeSortF]; simp
    have hs2 : mergeSortF 1 [b] = [b] := by rw [mergeSortF]; simp
    rw [hs1, hs2]
    unfold mergeSubj
    have hlen2 : [a].length + [b].length = 2 := rfl
    rw [hlen2]
    rw [mergeSubjF]
    rw [if_pos hab]
    rfl
  · show mergeSortF 2 [b, a] = [a, b]
    rw [mergeSortF]
    rw [if_neg (by simp)]
    have htake : List.take ([b, a].length / 2) [b, a] = [b] := by simp
    have hdrop : List.drop ([b, a].length / 2) [b, a] = [a] := by simp
    rw [htake, hdrop]
    have hs1 : mergeSortF 1 [a] = [a] := by rw [mergeSortF]; simp
    have hs2 : mergeSortF 1 [b] = [b] := by rw [mergeSortF]; simp
    rw [hs1, hs2]
    unfold mergeSubj
    have hlen2 : [b].length + [a].length = 2 := rfl
    rw [hlen2]
    rw [mergeSubjF]
    rw [if_neg hba]
    rfl

/-- C1: for every subjects list, any start date, any positive `maxDailyHours`
and every calendar date `d`, the `study` hours `generateSchedule` emits on
`d` sum to at most `maxDailyHours`. -/
theorem claim_C1 (subjects : List Subject) (startDate : ℤ) (maxH : ℚ)
    (hmax : 0 < maxH) (d : ℤ) :
    sumStudyOn (generateSchedule subjects startDate maxH) d ≤ maxH := by
  have hgen : generateSchedule subjects startDate maxH =
      runDays 30 (mergeSortSubjects subjects)
        (buildRem (mergeSortSubjects subjects)) startDate maxH := rfl
  rw [hgen]
  exact runDays_capacity _ _ _ _ _ (le_of_lt hmax) d

theorem claim_C1_witness :
    (0 : ℚ) < 6 ∧
      sumStudyOn (generateSchedule [⟨1, "A", 3, 10, 20⟩] 0 6) 0 ≤ 6 :=
  ⟨by norm_num, claim_C1 [⟨1, "A", 3, 10, 20⟩] 0 6 (by norm_num) 0⟩

/-- C2 as stated is false: the remaining-hours map is keyed by subject id,
so two entries sharing id 1 share one pool sized by the last entry in sorted
order.  Here entry "B" has `estimatedHours = 1`, yet the run emits 5 study
hours under subject id 1. -/
theorem claim_C2_counterexample :
    ((⟨1, "B", 1, 100, 1⟩ : Subject) ∈
        [(⟨1, "A", 1, 100, 5⟩ : Subject), ⟨1, "B", 1, 100, 1⟩]) ∧
      (⟨1, "B", 1, 100, 1⟩ : Subject).estimatedHours <
        sumStudyFor (generateSchedule
          [⟨1, "A", 1, 100, 5⟩, ⟨1, "B", 1, 100, 1⟩] 0 6) 1 :=
  ⟨List.mem_cons_of_mem _ (List.mem_cons_self _ _),
    of_decide_eq_true (by with_unfolding_all rfl)⟩

/-- C2 amended: for inputs whose subject ids are pairwise distinct and whose
estimated hours are nonnegative, the cumulative `study` hours for a subject
never exceed its `estimatedHours` at any prefix of the output, and the
tracked remaining value for it starts at `estimatedHours`, stays nonnegative
and only decreases from day to day. -/
theorem claim_C2 (subjects : List Subject) (startDate : ℤ) (maxH : ℚ)
    (hnd : (subjects.map Subject.id).Nodup)
    (hest : ∀ s ∈ subjects, 0 ≤ s.estimatedHours) :
    ∀ s ∈ subjects,
      (∀ p q, generateSchedule subjects startDate maxH = p ++ q →
        sumStudyFor p s.id ≤ s.estimatedHours) ∧
      (∀ j : Nat,
        0 ≤ stateAt (mergeSortSubjects subjects)
          (buildRem (mergeSortSubjects subjects)) startDate maxH j s.id ∧
        stateAt (mergeSortSubjects subjects)
          (buildRem (mergeSortSubjects subjects)) startDate maxH (j + 1) s.id ≤
        stateAt (mergeSortSubjects subjects)
          (buildRem (mergeSortSubjects subjects)) startDate maxH j s.id) := by
  intro s hs
  have hperm := mergeSortSubjects_perm subjects
  have hnd2 : ((mergeSortSubjects subjects).map Subject.id).Nodup :=
    ((hperm.map Subject.id).nodup_iff).2 hnd
  have hs2 : s ∈ mergeSortSubjects subjects := hperm.mem_iff.2 hs
  have hinit : buildRem (mergeSortSubjects subjects) s.id = s.estimatedHours :=
    buildRem_nodup _ hnd2 s hs2
  have hinit0 : 0 ≤ buildRem (mergeSortSubjects subjects) s.id := by
    rw [hinit]; exact hest s hs
  have hgen : generateSchedule subjects startDate maxH =
      runDays 30 (mergeSortSubjects subjects)
        (buildRem (mergeSortSubjects subjects)) startDate maxH := rfl
  constructor
  · intro p q hpq
    have htot : sumStudyFor (generateSchedule subjects startDate maxH) s.id =
        buildRem (mergeSortSubjects subjects) s.id -
          stateAt (mergeSortSubjects subjects)
            (buildRem (mergeSortSubjects subjects)) startDate maxH 30 s.id := by
      rw [hgen]; exact runDays_rem _ _ _ _ _ _
    have hfin : 0 ≤ stateAt (mergeSortSubjects subjects)
        (buildRem (mergeSortSubjects subjects)) startDate maxH 30 s.id :=
      stateAt_nonneg _ _ _ _ _ _ hinit0
    have hhours : ∀ it ∈ generateSchedule subjects startDate maxH,
        it.type = ItemType.study → 0 ≤ it.hours := by
      intro it hit hst
      rw [hgen] at hit
      rcases runDays_shape _ _ _ _ _ it hit with hsh | hsh
      · exact le_of_lt hsh.2.2.1
      · rw [hsh.1] at hst; exact absurd hst (by simp)
    have hq : 0 ≤ sumStudyFor q s.id := by
      refine sumStudyFor_nonneg _ _ fun it hit => ?_
      exact hhours it (hpq ▸ List.mem_append_right p hit)
    have hsplit : sumStudyFor p s.id + sumStudyFor q s.id =
        sumStudyFor (generateSchedule subjects startDate maxH) s.id := by
      rw [hpq, sumStudyFor_append]
    rw [hinit] at htot
    linarith
  · intro j
    exact ⟨stateAt_nonneg _ _ _ _ _ _ hinit0, stateAt_succ_le _ _ _ _ _ _⟩

theorem claim_C2_witness :
    (([(⟨1, "A", 3, 10, 4⟩ : Subject)]).map Subject.id).Nodup ∧
      (∀ s ∈ [(⟨1, "A", 3, 10, 4⟩ : Subject)], 0 ≤ s.estimatedHours) ∧
      sumStudyFor (generateSchedule [⟨1, "A", 3, 10, 4⟩] 0 6) 1 ≤ 4 := by
  refine ⟨by decide, ?_, ?_⟩
  · intro s hs
    rcases List.mem_singleton.1 hs with rfl
    norm_num
  · exact (claim_C2 [⟨1, "A", 3, 10, 4⟩] 0 6 (by decide)
      (fun s hs => by rcases List.mem_singleton.1 hs with rfl; norm_num)
      ⟨1, "A", 3, 10, 4⟩ (List.mem_cons_self _ _)).1
      (generateSchedule [⟨1, "A", 3, 10, 4⟩] 0 6) [] (by rw [List.append_nil])

/-- C3 as stated is false: the merge takes the right element when both keys
tie, so two distinct subjects with identical exam date and difficulty come
out in reversed input order. -/
theorem claim_C3_counterexample :
    mergeSortSubjects [⟨1, "X", 3, 10, 4⟩, ⟨2, "Y", 3, 10, 4⟩] =
        [⟨2, "Y", 3, 10, 4⟩, ⟨1, "X", 3, 10, 4⟩] ∧
      (⟨1, "X", 3, 10, 4⟩ : Subject) ≠ ⟨2, "Y", 3, 10, 4⟩ ∧
      (⟨1, "X", 3, 10, 4⟩ : Subject).examDate =
        (⟨2, "Y", 3, 10, 4⟩ : Subject).examDate ∧
      (⟨1, "X", 3, 10, 4⟩ : Subject).difficulty =
        (⟨2, "Y", 3, 10, 4⟩ : Subject).difficulty :=
  of_decide_eq_true (by with_unfolding_all rfl)

/-- C3 amended: `mergeSortSubjects` returns a permutation of its input that
is ordered by exam date ascending with difficulty descending on equal dates;
the sort is not stable (subjects with identical exam date and difficulty may
appear in reversed relative order, see the counterexample). -/
theorem claim_C3 (subjects : List Subject) :
    (mergeSortSubjects subjects).Perm subjects ∧
      (mergeSortSubjects subjects).Pairwise subjOrder :=
  ⟨mergeSortSubjects_perm subjects, mergeSortSubjects_sorted subjects⟩

/-- C9: an empty subjects list yields an empty schedule for every start date
and every daily cap. -/
theorem claim_C9 (startDate : ℤ) (maxH : ℚ) :
    generateSchedule [] startDate maxH = [] := by
  have h : ∀ (n : Nat) (rem : RemMap) (t : ℤ), runDays n [] rem t maxH = [] := by
    intro n
    induction n with
    | zero => intro rem t; rfl
    | succ n ih =>
      intro rem t
      rw [runDays]
      have hday : runDay [] rem t maxH = ([], rem) := rfl
      rw [hday]
      exact ih rem (t + 1)
  exact h 30 _ _

/-- C10 as stated is false: with two entries sharing id 1, the zero-workload
entry "Z" still draws from the shared remaining pool and receives a study
item. -/
theorem claim_C10_counterexample :
    ((⟨1, "Z", 3, 100, 0⟩ : Subject) ∈
        [(⟨1, "A", 3, 100, 4⟩ : Subject), ⟨1, "Z", 3, 100, 0⟩]) ∧
      (⟨1, "Z", 3, 100, 0⟩ : Subject).estimatedHours = 0 ∧
      (⟨0, 1, "Z", 2, ItemType.study⟩ : ScheduleItem) ∈
        generateSchedule [⟨1, "A", 3, 100, 4⟩, ⟨1, "Z", 3, 100, 0⟩] 0 6 :=
  ⟨List.mem_cons_of_mem _ (List.mem_cons_self _ _), rfl,
    of_decide_eq_true (by with_unfolding_all rfl)⟩

/-- C10 amended: provided subject ids are pairwise distinct, a subject with
`estimatedHours = 0` receives no schedule item at all (its map entry starts
at 0, only subjects with positive remaining hours enter the daily queue). -/
theorem claim_C10 (subjects : List Subject) (startDate : ℤ) (maxH : ℚ)
    (hnd : (subjects.map Subject.id).Nodup) :
    ∀ s ∈ subjects, s.estimatedHours = 0 →
      ∀ it ∈ generateSchedule subjects startDate maxH, it.subjectId ≠ s.id := by
  intro s hs hest it hit
  have hperm := mergeSortSubjects_perm subjects
  have hnd2 : ((mergeSortSubjects subjects).map Subject.id).Nodup :=
    ((hperm.map Subject.id).nodup_iff).2 hnd
  have hs2 : s ∈ mergeSortSubjects subjects := hperm.mem_iff.2 hs
  have hgen : generateSchedule subjects startDate maxH =
      runDays 30 (mergeSortSubjects subjects)
        (buildRem (mergeSortSubjects subjects)) startDate maxH := rfl
  rw [hgen] at hit
  refine runDays_zero_id 30 _ _ _ _ s.id ?_ it hit
  rw [buildRem_nodup _ hnd2 s hs2, hest]

theorem claim_C10_witness :
    (([(⟨1, "A", 3, 10, 2⟩ : Subject), ⟨2, "Z", 3, 10, 0⟩]).map Subject.id).Nodup ∧
      (⟨0, 1, "A", 2, ItemType.study⟩ : ScheduleItem) ∈
        generateSchedule [⟨1, "A", 3, 10, 2⟩, ⟨2, "Z", 3, 10, 0⟩] 0 6 ∧
      (⟨0, 1, "A", 2, ItemType.study⟩ : ScheduleItem).subjectId ≠
        (⟨2, "Z", 3, 10, 0⟩ : Subject).id :=
  ⟨by decide, of_decide_eq_true (by with_unfolding_all rfl),
    claim_C10 [⟨1, "A", 3, 10, 2⟩, ⟨2, "Z", 3, 10, 0⟩] 0 6 (by decide)
      ⟨2, "Z", 3, 10, 0⟩ (List.mem_cons_of_mem _ (List.mem_cons_self _ _)) rfl
      ⟨0, 1, "A", 2, ItemType.study⟩
      (of_decide_eq_true (by with_unfolding_all rfl))⟩

/-- C4: with pairwise-distinct subject ids, revision items are characterised
exactly: for every subject `S` and date `D`, the `revision` items for `S` at
`D` number one per `study` chunk for `S` at `D-1`, `D-3` and `D-7` when `D`
strictly precedes `S.examDate`, and zero otherwise (no deduplication); in
particular no `revision` item is dated on or after its subject's exam. -/
theorem claim_C4 (subjects : List Subject) (startDate : ℤ) (maxH : ℚ)
    (hnd : (subjects.map Subject.id).Nodup) :
    ∀ s ∈ subjects, (∀ D : ℤ,
      countRevAt (generateSchedule subjects startDate maxH) s.id D =
        if D < s.examDate then
          countStudyAt (generateSchedule subjects startDate maxH) s.id (D - 1) +
          countStudyAt (generateSchedule subjects startDate maxH) s.id (D - 3) +
          countStudyAt (generateSchedule subjects startDate maxH) s.id (D - 7)
        else 0) ∧
      ∀ it ∈ generateSchedule subjects startDate maxH,
        it.type = ItemType.revision → it.subjectId = s.id →
          it.date < s.examDate := by
  intro s hs
  have hperm := mergeSortSubjects_perm subjects
  have hinj := List.inj_on_of_nodup_map hnd
  have hsub : ∀ s2 ∈ mergeSortSubjects subjects, s2.id = s.id →
      s2.examDate = s.examDate := by
    intro s2 hs2 hid
    have hs2' : s2 ∈ subjects := hperm.mem_iff.1 hs2
    rw [hinj hs2' hs hid]
  have hgen : generateSchedule subjects startDate maxH =
      runDays 30 (mergeSortSubjects subjects)
        (buildRem (mergeSortSubjects subjects)) startDate maxH := rfl
  have hcount : ∀ D : ℤ,
      countRevAt (generateSchedule subjects startDate maxH) s.id D =
        if D < s.examDate then
          countStudyAt (generateSchedule subjects startDate maxH) s.id (D - 1) +
          countStudyAt (generateSchedule subjects startDate maxH) s.id (D - 3) +
          countStudyAt (generateSchedule subjects startDate maxH) s.id (D - 7)
        else 0 := by
    intro D
    rw [hgen]
    exact runDays_count 30 _ _ _ _ s.id s.examDate hsub D
  refine ⟨hcount, ?_⟩
  intro it hit htype hid
  by_contra hge
  have h1 : 0 < countRevAt (generateSchedule subjects startDate maxH) s.id it.date := by
    refine List.countP_pos_iff.2 ⟨it, hit, ?_⟩
    simp [htype, hid]
  rw [hcount it.date, if_neg hge] at h1
  exact absurd h1 (lt_irrefl 0)

theorem claim_C4_witness :
    (([(⟨1, "A", 5, 10, 4⟩ : Subject)]).map Subject.id).Nodup ∧
      countRevAt (generateSchedule [⟨1, "A", 5, 10, 4⟩] 0 6) 1 1 =
        if (1 : ℤ) < 10 then
          countStudyAt (generateSchedule [⟨1, "A", 5, 10, 4⟩] 0 6) 1 (1 - 1) +
          countStudyAt (generateSchedule [⟨1, "A", 5, 10, 4⟩] 0 6) 1 (1 - 3) +
          countStudyAt (generateSchedule [⟨1, "A", 5, 10, 4⟩] 0 6) 1 (1 - 7)
        else 0 :=
  ⟨by decide,
    (claim_C4 [⟨1, "A", 5, 10, 4⟩] 0 6 (by decide) ⟨1, "A", 5, 10, 4⟩
      (List.mem_cons_self _ _)).1 1⟩

/-- C5: two subjects with identical exam date and estimated hours but
difficulty 5 versus 1 (in either input order): on every simulated day the
difficulty-5 subject is served first — the day's study items carry its id
before the other's — and the difficulty-1 subject receives a chunk that day
only if the harder subject was out of work or left spare daily capacity. -/
theorem claim_C5 (a b : Subject) (t : ℤ) (maxH : ℚ) (subs : List Subject)
    (hid : a.id ≠ b.id) (ha : a.difficulty = 5) (hb : b.difficulty = 1)
    (hexam : a.examDate = b.examDate)
    (hest : a.estimatedHours = b.estimatedHours) (hmax : 0 < maxH)
    (hsubs : subs = [a, b] ∨ subs = [b, a]) :
    ∀ j : Nat, j < 30 →
      (filterStudyOn (generateSchedule subs t maxH) (t + (j : ℤ))).map
          (fun it => it.subjectId) =
        (if 0 < stateAt [a, b] (buildRem [a, b]) t maxH j a.id
         then [a.id] else []) ++
        (if 0 < stateAt [a, b] (buildRem [a, b]) t maxH j b.id ∧
            (if 0 < stateAt [a, b] (buildRem [a, b]) t maxH j a.id
             then min 2 (min (stateAt [a, b] (buildRem [a, b]) t maxH j a.id) maxH)
             else 0) < maxH
         then [b.id] else []) := by
  intro j hj
  have hdiff : b.difficulty < a.difficulty := by
    rw [ha, hb]; norm_num
  have hpair := mergeSortSubjects_pair a b hexam hdiff
  have hsorted : mergeSortSubjects subs = [a, b] := by
    rcases hsubs with h | h <;> rw [h]
    · exact hpair.1
    · exact hpair.2
  have hgen : generateSchedule subs t maxH =
      runDays 30 (mergeSortSubjects subs) (buildRem (mergeSortSubjects subs))
        t maxH := rfl
  rw [hgen, hsorted]
  rw [runDays_filterStudy 30 [a, b] (buildRem [a, b]) t maxH j hj]
  have hdd : daysUntilExam a (t + (j : ℤ)) = daysUntilExam b (t + (j : ℤ)) := by
    unfold daysUntilExam
    rw [hexam]
  have hp : (daysUntilExam a (t + (j : ℤ)) : ℚ) / a.difficulty <
      (daysUntilExam b (t + (j : ℤ)) : ℚ) / b.difficulty := by
    rw [← hdd, ha, hb, div_one]
    refine div_lt_self ?_ (by norm_num)
    exact_mod_cast daysUntilExam_pos a (t + (j : ℤ))
  exact runDay_pair a b (stateAt [a, b] (buildRem [a, b]) t maxH j)
    (t + (j : ℤ)) maxH hid hp hmax

theorem claim_C5_witness :
    ((⟨1, "A", 5, 50, 10⟩ : Subject).id ≠ (⟨2, "B", 1, 50, 10⟩ : Subject).id) ∧
      (0 : ℚ) < 6 ∧ (0 : Nat) < 30 ∧
      (filterStudyOn (generateSchedule
          [⟨1, "A", 5, 50, 10⟩, ⟨2, "B", 1, 50, 10⟩] 0 6)
          (0 + ((0 : ℕ) : ℤ))).map (fun it => it.subjectId) =
        (if 0 < stateAt [⟨1, "A", 5, 50, 10⟩, ⟨2, "B", 1, 50, 10⟩]
            (buildRem [⟨1, "A", 5, 50, 10⟩, ⟨2, "B", 1, 50, 10⟩]) 0 6 0
            (⟨1, "A", 5, 50, 10⟩ : Subject).id
         then [(⟨1, "A", 5, 50, 10⟩ : Subject).id] else []) ++
        (if 0 < stateAt [⟨1, "A", 5, 50, 10⟩, ⟨2, "B", 1, 50, 10⟩]
            (buildRem [⟨1, "A", 5, 50, 10⟩, ⟨2, "B", 1, 50, 10⟩]) 0 6 0
            (⟨2, "B", 1, 50, 10⟩ : Subject).id ∧
            (if 0 < stateAt [⟨1, "A", 5, 50, 10⟩, ⟨2, "B", 1, 50, 10⟩]
                (buildRem [⟨1, "A", 5, 50, 10⟩, ⟨2, "B", 1, 50, 10⟩]) 0 6 0
                (⟨1, "A", 5, 50, 10⟩ : Subject).id
             then min 2 (min (stateAt [⟨1, "A", 5, 50, 10⟩, ⟨2, "B", 1, 50, 10⟩]
                (buildRem [⟨1, "A", 5, 50, 10⟩, ⟨2, "B", 1, 50, 10⟩]) 0 6 0
                (⟨1, "A", 5, 50, 10⟩ : Subject).id) 6)
             else 0) < 6
         then [(⟨2, "B", 1, 50, 10⟩ : Subject).id] else []) :=
  ⟨by decide, by norm_num, by norm_num,
    claim_C5 ⟨1, "A", 5, 50, 10⟩ ⟨2, "B", 1, 50, 10⟩ 0 6
      [⟨1, "A", 5, 50, 10⟩, ⟨2, "B", 1, 50, 10⟩] (by decide) rfl rfl rfl rfl
      (by norm_num) (Or.inl rfl) 0 (by norm_num)⟩

/-- C6: a subject whose exam date lies before the start date has
`daysUntilExam` clamped to exactly 1 on every day of the horizon, still
enters the daily queue with urgency `1 / difficulty` whenever it has
remaining hours, and (as the only subject) still receives a study chunk of
`min 2 (min remaining maxDailyHours)` on every such day. -/
theorem claim_C6 (a : Subject) (t : ℤ) (maxH : ℚ) (hexam : a.examDate < t)
    (hdiff : 1 ≤ a.difficulty) (hest : 0 < a.estimatedHours)
    (hmax : 0 < maxH) :
    ∀ j : Nat, j < 30 →
      daysUntilExam a (t + (j : ℤ)) = 1 ∧
      buildQueue [a] (stateAt [a] (buildRem [a]) t maxH j) (t + (j : ℤ)) =
        (if 0 < stateAt [a] (buildRem [a]) t maxH j a.id
         then [((1 : ℚ) / a.difficulty, a)] else []) ∧
      (0 < stateAt [a] (buildRem [a]) t maxH j a.id →
        filterStudyOn (generateSchedule [a] t maxH) (t + (j : ℤ)) =
          [studyItem (t + (j : ℤ)) a
            (min 2 (min (stateAt [a] (buildRem [a]) t maxH j a.id) maxH))]) := by
  intro j hj
  have hd1 : daysUntilExam a (t + (j : ℤ)) = 1 := by
    unfold daysUntilExam
    have : a.examDate - (t + (j : ℤ)) ≤ 1 := by omega
    omega
  refine ⟨hd1, ?_, ?_⟩
  · rw [buildQueue_single, hd1]
    norm_num
  · intro hpos
    have hgen : generateSchedule [a] t maxH =
        runDays 30 (mergeSortSubjects [a]) (buildRem (mergeSortSubjects [a]))
          t maxH := rfl
    have hsorted : mergeSortSubjects [a] = [a] := rfl
    rw [hgen, hsorted]
    rw [runDays_filterStudy 30 [a] (buildRem [a]) t maxH j hj]
    rw [runDay_single a _ _ _ hmax, if_pos hpos]
    rw [filterStudyOn_cons_study, filterStudyOn_revisions]

theorem claim_C6_witness :
    ((⟨1, "S", 2, -5, 3⟩ : Subject).examDate < 0) ∧
      (1 ≤ (⟨1, "S", 2, -5, 3⟩ : Subject).difficulty) ∧
      (0 < (⟨1, "S", 2, -5, 3⟩ : Subject).estimatedHours) ∧ ((0 : ℚ) < 6) ∧
      (daysUntilExam ⟨1, "S", 2, -5, 3⟩ (0 + ((0 : ℕ) : ℤ)) = 1 ∧
        buildQueue [⟨1, "S", 2, -5, 3⟩]
            (stateAt [⟨1, "S", 2, -5, 3⟩] (buildRem [⟨1, "S", 2, -5, 3⟩]) 0 6 0)
            (0 + ((0 : ℕ) : ℤ)) =
          (if 0 < stateAt [⟨1, "S", 2, -5, 3⟩] (buildRem [⟨1, "S", 2, -5, 3⟩])
              0 6 0 (⟨1, "S", 2, -5, 3⟩ : Subject).id
           then [((1 : ℚ) / (⟨1, "S", 2, -5, 3⟩ : Subject).difficulty,
             (⟨1, "S", 2, -5, 3⟩ : Subject))] else []) ∧
        (0 < stateAt [⟨1, "S", 2, -5, 3⟩] (buildRem [⟨1, "S", 2, -5, 3⟩])
            0 6 0 (⟨1, "S", 2, -5, 3⟩ : Subject).id →
          filterStudyOn (generateSchedule [⟨1, "S", 2, -5, 3⟩] 0 6)
              (0 + ((0 : ℕ) : ℤ)) =
            [studyItem (0 + ((0 : ℕ) : ℤ)) ⟨1, "S", 2, -5, 3⟩
              (min 2 (min (stateAt [⟨1, "S", 2, -5, 3⟩]
                (buildRem [⟨1, "S", 2, -5, 3⟩]) 0 6 0
                (⟨1, "S", 2, -5, 3⟩ : Subject).id) 6))])) :=
  ⟨by decide, by norm_num, by norm_num, by norm_num,
    claim_C6 ⟨1, "S", 2, -5, 3⟩ 0 6 (by decide) (by norm_num) (by norm_num)
      (by norm_num) 0 (by norm_num)⟩

/-- C7 as stated is false: two entries with the same id are not independent.
Renaming the second entry's id from 1 to 2 changes even the length of the
produced plan (4 items against 8), which id renaming alone cannot do. -/
theorem claim_C7_counterexample :
    (generateSchedule [⟨1, "A", 3, 10, 2⟩, ⟨1, "B", 3, 10, 2⟩] 0 6).length ≠
      (generateSchedule [⟨1, "A", 3, 10, 2⟩, ⟨2, "B", 3, 10, 2⟩] 0 6).length :=
  of_decide_eq_true (by with_unfolding_all rfl)

/-- C7 amended: entries sharing an id share one remaining-hours pool keyed
by that id, initialised to the `estimatedHours` of the pool's last writer in
sorted order (`buildRem`): for nonnegative estimates, the total `study`
hours emitted under any id never exceed that pool's initial value. -/
theorem claim_C7 (subjects : List Subject) (startDate : ℤ) (maxH : ℚ)
    (hest : ∀ s ∈ subjects, 0 ≤ s.estimatedHours) (i : ℤ) :
    sumStudyFor (generateSchedule subjects startDate maxH) i ≤
      buildRem (mergeSortSubjects subjects) i := by
  have hgen : generateSchedule subjects startDate maxH =
      runDays 30 (mergeSortSubjects subjects)
        (buildRem (mergeSortSubjects subjects)) startDate maxH := rfl
  rw [hgen, runDays_rem]
  have hinit0 : 0 ≤ buildRem (mergeSortSubjects subjects) i :=
    buildRem_nonneg _ _ fun s hs =>
      hest s ((mergeSortSubjects_perm subjects).mem_iff.1 hs)
  have hfin := stateAt_nonneg 30 (mergeSortSubjects subjects)
    (buildRem (mergeSortSubjects subjects)) startDate maxH i hinit0
  linarith

theorem claim_C7_witness :
    (∀ s ∈ [(⟨1, "A", 1, 100, 5⟩ : Subject), ⟨1, "B", 1, 100, 1⟩],
      0 ≤ s.estimatedHours) ∧
      sumStudyFor (generateSchedule
          [⟨1, "A", 1, 100, 5⟩, ⟨1, "B", 1, 100, 1⟩] 0 6) 1 ≤
        buildRem (mergeSortSubjects
          [⟨1, "A", 1, 100, 5⟩, ⟨1, "B", 1, 100, 1⟩]) 1 := by
  have hest : ∀ s ∈ [(⟨1, "A", 1, 100, 5⟩ : Subject), ⟨1, "B", 1, 100, 1⟩],
      0 ≤ s.estimatedHours := by
    intro s hs
    rcases List.mem_cons.1 hs with rfl | hs
    · norm_num
    · rcases List.mem_singleton.1 hs with rfl
      norm_num
  exact ⟨hest, claim_C7 [⟨1, "A", 1, 100, 5⟩, ⟨1, "B", 1, 100, 1⟩] 0 6 hest 1⟩

/-- C8 as stated is false: under the documented preconditions alone
(nonnegative estimate, positive cap, difficulty in [1,5]), a fractional
estimate such as 1.3 produces a study chunk of 1.3 hours, which is not a
whole or half unit. -/
theorem claim_C8_counterexample :
    ((⟨0, 1, "A", 13 / 10, ItemType.study⟩ : ScheduleItem) ∈
        generateSchedule [⟨1, "A", 3, 100, 13 / 10⟩] 0 6) ∧
      ¬ isHalfUnit (13 / 10) ∧
      (0 : ℚ) ≤ 13 / 10 ∧ (0 : ℚ) < 6 ∧ (1 : ℚ) ≤ 3 ∧ (3 : ℚ) ≤ 5 :=
  ⟨of_decide_eq_true (by with_unfolding_all rfl),
    of_decide_eq_true (by with_unfolding_all rfl),
    by norm_num, by norm_num, by norm_num, by norm_num⟩

/-- C8 amended: if additionally every `estimatedHours` and the daily cap are
whole or half units, then every emitted item has positive hours, every
`study` item is a half-unit multiple of at most 2 hours, and every
`revision` item is exactly half an hour. -/
theorem claim_C8 (subjects : List Subject) (startDate : ℤ) (maxH : ℚ)
    (hmax : 0 < maxH) (hest : ∀ s ∈ subjects, 0 ≤ s.estimatedHours)
    (hdiff : ∀ s ∈ subjects, 1 ≤ s.difficulty ∧ s.difficulty ≤ 5)
    (hesthu : ∀ s ∈ subjects, isHalfUnit s.estimatedHours)
    (hmaxhu : isHalfUnit maxH) :
    ∀ it ∈ generateSchedule subjects startDate maxH,
      0 < it.hours ∧
      (it.type = ItemType.study → it.hours ≤ 2 ∧ isHalfUnit it.hours) ∧
      (it.type = ItemType.revision → it.hours = 1 / 2) := by
  intro it hit
  have hgen : generateSchedule subjects startDate maxH =
      runDays 30 (mergeSortSubjects subjects)
        (buildRem (mergeSortSubjects subjects)) startDate maxH := rfl
  rw [hgen] at hit
  have hrem : ∀ i, isHalfUnit (buildRem (mergeSortSubjects subjects) i) :=
    fun i => buildRem_halfUnit _ i fun s hs =>
      hesthu s ((mergeSortSubjects_perm subjects).mem_iff.1 hs)
  have hhu := runDays_halfUnit 30 _ _ startDate maxH hrem hmaxhu it hit
  rcases runDays_shape _ _ _ _ _ it hit with hs | hs
  · refine ⟨hs.2.2.1, fun _ => ⟨hs.2.2.2, hhu hs.1⟩, fun hr => ?_⟩
    rw [hs.1] at hr
    exact absurd hr (by simp)
  · refine ⟨by rw [hs.2.1]; norm_num, fun hst => ?_, fun _ => hs.2.1⟩
    rw [hs.1] at hst
    exact absurd hst (by simp)

theorem claim_C8_witness :
    (0 : ℚ) < 6 ∧
      (∀ s ∈ [(⟨1, "A", 3, 10, 4⟩ : Subject)], 0 ≤ s.estimatedHours) ∧
      (∀ s ∈ [(⟨1, "A", 3, 10, 4⟩ : Subject)],
        1 ≤ s.difficulty ∧ s.difficulty ≤ 5) ∧
      (∀ s ∈ [(⟨1, "A", 3, 10, 4⟩ : Subject)], isHalfUnit s.estimatedHours) ∧
      isHalfUnit (6 : ℚ) ∧
      (0 < (⟨0, 1, "A", 2, ItemType.study⟩ : ScheduleItem).hours ∧
        ((⟨0, 1, "A", 2, ItemType.study⟩ : ScheduleItem).type = ItemType.study →
          (⟨0, 1, "A", 2, ItemType.study⟩ : ScheduleItem).hours ≤ 2 ∧
          isHalfUnit (⟨0, 1, "A", 2, ItemType.study⟩ : ScheduleItem).hours) ∧
        ((⟨0, 1, "A", 2, ItemType.study⟩ : ScheduleItem).type = ItemType.revision →
          (⟨0, 1, "A", 2, ItemType.study⟩ : ScheduleItem).hours = 1 / 2)) := by
  have he1 : ∀ s ∈ [(⟨1, "A", 3, 10, 4⟩ : Subject)], 0 ≤ s.estimatedHours := by
    intro s hs; rcases List.mem_singleton.1 hs with rfl; norm_num
  have he2 : ∀ s ∈ [(⟨1, "A", 3, 10, 4⟩ : Subject)],
      1 ≤ s.difficulty ∧ s.difficulty ≤ 5 := by
    intro s hs; rcases List.mem_singleton.1 hs with rfl
    constructor <;> norm_num
  have he3 : ∀ s ∈ [(⟨1, "A", 3, 10, 4⟩ : Subject)], isHalfUnit s.estimatedHours := by
    intro s hs; rcases List.mem_singleton.1 hs with rfl
    rw [isHalfUnit_iff]
    exact ⟨8, by norm_num⟩
  have he4 : isHalfUnit (6 : ℚ) := by
    rw [isHalfUnit_iff]
    exact ⟨12, by norm_num⟩
  refine ⟨by norm_num, he1, he2, he3, he4, ?_⟩
  exact claim_C8 [⟨1, "A", 3, 10, 4⟩] 0 6 (by norm_num) he1 he2 he3 he4
    ⟨0, 1, "A", 2, ItemType.study⟩
    (of_decide_eq_true (by with_unfolding_all rfl))

theorem mergeSubjF_fuel_inv (f1 f2 : Nat) (l r : List Subject)
    (h1 : l.length + r.length ≤ f1) (h2 : l.length + r.length ≤ f2) :
    mergeSubjF f1 l r = mergeSubjF f2 l r := by
  induction f1 generalizing f2 l r with
  | zero =>
    match l, r with
    | [], r => simp [mergeSubjF]
    | x :: xs, [] => simp [mergeSubjF]
    | x :: xs, y :: ys => simp at h1
  | succ f1 ih =>
    match l, r with
    | [], r => simp [mergeSubjF]
    | x :: xs, [] => simp [mergeSubjF]
    | x :: xs, y :: ys =>
      match f2 with
      | 0 => simp at h2
      | f2 + 1 =>
        rw [mergeSubjF, mergeSubjF]
        simp only [List.length_cons] at h1 h2
        split
        · rw [ih f2 xs (y :: ys) (by simp; omega) (by simp; omega)]
        · rw [ih f2 (x :: xs) ys (by simp; omega) (by simp; omega)]

/-- `mergeSubj` satisfies exactly the recursion of the source's `merge`:
the fuel is irrelevant as long as it is at least the sum of lengths. -/
theorem mergeSubj_eq_nil_left (r : List Subject) : mergeSubj [] r = r := by
  simp [mergeSubj, mergeSubjF]

theorem mergeSubj_eq_nil_right (l : List Subject) : mergeSubj l [] = l := by
  match l with
  | [] => simp [mergeSubj, mergeSubjF]
  | x :: xs => simp [mergeSubj, mergeSubjF]

theorem mergeSubj_eq_cons (x y : Subject) (xs ys : List Subject) :
    mergeSubj (x :: xs) (y :: ys) =
      if takeLeft x y then x :: mergeSubj xs (y :: ys)
      else y :: mergeSubj (x :: xs) ys := by
  unfold mergeSubj
  rw [show (x :: xs).length + (y :: ys).length =
    (xs.length + (y :: ys).length) + 1 by simp; omega]
  rw [mergeSubjF]
  split
  · rw [mergeSubjF_fuel_inv (xs.length + (y :: ys).length)
      (xs.length + (y :: ys).length) xs (y :: ys) (le_refl _) (le_refl _)]
  · rw [mergeSubjF_fuel_inv (xs.length + (y :: ys).length)
      ((x :: xs).length + ys.length) (x :: xs) ys (by simp; omega) (by simp)]

theorem mergeSortF_fuel_inv (f1 f2 : Nat) (l : List Subject)
    (h1 : l.length ≤ f1) (h2 : l.length ≤ f2) :
    mergeSortF f1 l = mergeSortF f2 l := by
  induction f1 generalizing f2 l with
  | zero =>
    have hl : l = [] := List.eq_nil_of_length_eq_zero (Nat.le_zero.1 h1)
    subst hl
    have e2 : ∀ f : Nat, mergeSortF f ([] : List Subject) = [] := by
      intro f
      match f with
      | 0 => rfl
      | f + 1 => rw [mergeSortF]; rw [if_pos (by simp)]
    rw [e2, e2]
  | succ f1 ih =>
    match f2 with
    | 0 =>
      have hl : l = [] := List.eq_nil_of_length_eq_zero (Nat.le_zero.1 h2)
      subst hl
      rw [mergeSortF, mergeSortF]
      simp
    | f2 + 1 =>
      rw [mergeSortF, mergeSortF]
      split
      · rfl
      · rename_i hlen
        rw [ih f2 (l.take (l.length / 2))
            (by simp [List.length_take]; omega) (by simp [List.length_take]; omega),
          ih f2 (l.drop (l.length / 2))
            (by simp [List.length_drop]; omega) (by simp [List.length_drop]; omega)]

/-- `mergeSortSubjects` satisfies exactly the recursion of the source: split
at the midpoint, sort both halves, merge. -/
theorem mergeSortSubjects_eq (l : List Subject) :
    mergeSortSubjects l =
      if l.length ≤ 1 then l
      else
        mergeSubj (mergeSortSubjects (l.take (l.length / 2)))
          (mergeSortSubjects (l.drop (l.length / 2))) := by
  unfold mergeSortSubjects
  by_cases hlen : l.length ≤ 1
  · rw [if_pos hlen]
    match hl : l.length with
    | 0 =>
      have : l = [] := List.eq_nil_of_length_eq_zero hl
      subst this
      rfl
    | n + 1 =>
      rw [mergeSortF]
      rw [if_pos hlen]
  · rw [if_neg hlen]
    obtain ⟨n, hl⟩ : ∃ n, l.length = n + 1 := ⟨l.length - 1, by omega⟩
    rw [hl, mergeSortF, hl]
    rw [if_neg (show ¬ n + 1 ≤ 1 by omega)]
    congr 1
    · exact mergeSortF_fuel_inv n (l.take ((n + 1) / 2)).length (l.take ((n + 1) / 2))
        (by simp [List.length_take]; omega) (le_refl _)
    · exact mergeSortF_fuel_inv n (l.drop ((n + 1) / 2)).length (l.drop ((n + 1) / 2))
        (by simp [List.length_drop]; omega) (le_refl _)

theorem heapifyUpF_fuel_inv [Inhabited α] (f1 f2 : Nat) (h : Heap α) (i : Nat)
    (h1 : i ≤ f1) (h2 : i ≤ f2) : heapifyUpF f1 h i = heapifyUpF f2 h i := by
  induction f1 generalizing f2 h i with
  | zero =>
    have hi : i = 0 := Nat.le_zero.1 h1
    subst hi
    have e2 : ∀ (f : Nat) (h : Heap α), heapifyUpF f h 0 = h := by
      intro f h
      match f with
      | 0 => rfl
      | f + 1 => rw [heapifyUpF]; rw [if_pos rfl]
    rw [e2, e2]
  | succ f1 ih =>
    by_cases hi : i = 0
    · subst hi
      have e2 : ∀ (f : Nat) (h : Heap α), heapifyUpF f h 0 = h := by
        intro f h
        match f with
        | 0 => rfl
        | f + 1 => rw [heapifyUpF]; rw [if_pos rfl]
      rw [e2, e2]
    · match f2 with
      | 0 => omega
      | f2 + 1 =>
        rw [heapifyUpF, heapifyUpF]
        rw [if_neg hi, if_neg hi]
        dsimp only
        split
        · exact ih f2 _ _ (by omega) (by omega)
        · rfl

/-- `heapifyUp` satisfies exactly the loop of the source. -/
theorem heapifyUp_eq [Inhabited α] (h : Heap α) (i : Nat) :
    heapifyUp h i =
      if i = 0 then h
      else
        if (h.getD i default).1 < (h.getD ((i - 1) / 2) default).1 then
          heapifyUp (swapL h i ((i - 1) / 2)) ((i - 1) / 2)
        else h := by
  by_cases hi : i = 0
  · subst hi
    rw [if_pos rfl]
    rfl
  · rw [if_neg hi]
    unfold heapifyUp
    obtain ⟨j, rfl⟩ : ∃ j, i = j + 1 := ⟨i - 1, by omega⟩
    rw [heapifyUpF]
    rw [if_neg hi]
    dsimp only
    split
    · exact heapifyUpF_fuel_inv j ((j + 1 - 1) / 2) _ _ (by omega) (le_refl _)
    · rfl

theorem smallestIdx_of_ge [Inhabited α] (h : Heap α) (i : Nat)
    (hi : h.length ≤ i) : smallestIdx h i = i := by
  dsimp only [smallestIdx]
  split_ifs <;> omega

theorem heapifyDownF_fuel_inv [Inhabited α] (f1 f2 : Nat) (h : Heap α) (i : Nat)
    (h1 : h.length - i ≤ f1) (h2 : h.length - i ≤ f2) :
    heapifyDownF f1 h i = heapifyDownF f2 h i := by
  induction f1 generalizing f2 h i with
  | zero =>
    have hi : h.length ≤ i := by omega
    have hs := smallestIdx_of_ge h i hi
    have e2 : ∀ f : Nat, heapifyDownF f h i = h := by
      intro f
      match f with
      | 0 => rfl
      | f + 1 => rw [heapifyDownF]; simp [hs]
    rw [e2, e2]
  | succ f1 ih =>
    by_cases hs : smallestIdx h i = i
    · have e2 : ∀ f : Nat, heapifyDownF f h i = h := by
        intro f
        match f with
        | 0 => rfl
        | f + 1 => rw [heapifyDownF]; simp [hs]
      rw [e2, e2]
    · have hlt := smallestIdx_of_ne h i hs
      match f2 with
      | 0 => omega
      | f2 + 1 =>
        rw [heapifyDownF, heapifyDownF]
        simp only [hs, if_false]
        refine ih f2 (swapL h i (smallestIdx h i)) (smallestIdx h i) ?_ ?_ <;>
          rw [length_swapL] <;> omega

/-- `heapifyDown` satisfies exactly the loop of the source. -/
theorem heapifyDown_eq [Inhabited α] (h : Heap α) (i : Nat) :
    heapifyDown h i =
      if smallestIdx h i = i then h
      else heapifyDown (swapL h i (smallestIdx h i)) (smallestIdx h i) := by
  by_cases hs : smallestIdx h i = i
  · rw [if_pos hs]
    unfold heapifyDown
    match hf : h.length with
    | 0 => rfl
    | n + 1 => rw [heapifyDownF]; simp [hs]
  · rw [if_neg hs]
    have hlt := smallestIdx_of_ne h i hs
    unfold heapifyDown
    obtain ⟨n, hn⟩ : ∃ n, h.length = n + 1 := ⟨h.length - 1, by omega⟩
    rw [hn, heapifyDownF]
    simp only [hs, if_false]
    rw [length_swapL, hn]
    exact heapifyDownF_fuel_inv n (n + 1) (swapL h i (smallestIdx h i))
      (smallestIdx h i) (by rw [length_swapL, hn]; omega)
      (by rw [length_swapL, hn]; omega)

/-- `allocLoop` satisfies exactly the `while` loop of the source: check the
guard, extract the minimum, cut a chunk, emit, recurse on the smaller heap. -/
theorem allocLoop_eq (pq : Heap Subject) (rem : RemMap) (alloc maxH : ℚ)
    (day : ℤ) :
    allocLoop pq rem alloc maxH day =
      if pq = [] ∨ ¬ alloc < maxH then ([], rem)
      else
        match extractMin pq with
        | none => ([], rem)
        | some (s, pq') =>
          let remaining := rem s.id
          let chunk := min 2 (min remaining (maxH - alloc))
          if 0 < chunk then
            let res := allocLoop pq' (updateMap rem s.id (remaining - chunk))
              (alloc + chunk) maxH day
            (studyItem day s chunk :: (revisionItemsFor day s ++ res.1), res.2)
          else allocLoop pq' rem alloc maxH day := by
  unfold allocLoop
  match pq with
  | [] =>
    rw [if_pos (Or.inl rfl)]
    rfl
  | x :: pq0 =>
    show allocLoopF (pq0.length + 1) (x :: pq0) rem alloc maxH day = _
    rw [allocLoopF]
    split
    · rfl
    · match hx : extractMin (x :: pq0) with
      | none => rfl
      | some (s, pq') =>
        have hlen : pq'.length = pq0.length := by
          have := extractMin_length (x :: pq0) s pq' hx
          simp at this
          omega
        dsimp only
        rw [hlen]

end Scheduler

